import Mathlib

/-!
Shallow embedding of the entity-resolution core of the WSARetention
repository (`src/data_processor.py` and `src/matching_analyzer.py`),
together with proofs settling the frozen claims about it.

Strings are modelled as `List Char`.  Python's `re` character classes
`\w` and `\s` are modelled by their ASCII behaviour (`isWordChar`,
`isWs`), and `str.lower` by ASCII lowering (`pyLower`); all concrete
inputs appearing in counterexamples and witnesses are ASCII, where the
model coincides with the source.  `pandas` missing values (`NaN`) are
modelled as the empty string: after preprocessing every `name_clean` /
`email_clean` cell is a string produced by `clean_names` /
`clean_emails`, which never return `NaN`.

The two string-similarity scorers of the `fuzzywuzzy` library
(`process.extract`'s `WRatio` and `fuzz.ratio`) are external to the
repository; the embedding is parametric in them (structure `Fuzz`), so
every theorem below holds for an arbitrary pair of scorers, and
witnesses instantiate them with concrete functions.
-/

namespace WSARetention

/-- Strings are lists of characters. -/
abbrev Str := List Char

/-- ASCII model of Python's `\s` class (and of `str.strip`'s default). -/
def isWs (c : Char) : Bool :=
  c == ' ' || c == '\t' || c == '\n' || c == '\r' || c == '\x0b' || c == '\x0c'

/-- ASCII model of Python's `\w` class: letters, digits, underscore. -/
def isWordChar (c : Char) : Bool :=
  c.isAlpha || c.isDigit || c == '_'

/-- ASCII model of `str.lower` applied to one character. -/
def pyLower (c : Char) : Char :=
  if 65 ≤ c.toNat ∧ c.toNat ≤ 90 then Char.ofNat (c.toNat + 32) else c

/-- Model of `str.strip()`: drop whitespace from both ends. -/
def pyStrip (l : Str) : Str :=
  ((l.dropWhile isWs).reverse.dropWhile isWs).reverse

/-- Model of `re.sub(r'\s+', ' ', s)`: collapse every whitespace run
to a single space. -/
def collapseWs : Str → Str
  | [] => []
  | c :: cs =>
    if isWs c then
      match cs with
      | [] => [' ']
      | d :: _ => if isWs d then collapseWs cs else ' ' :: collapseWs cs
    else c :: collapseWs cs

/-- Separator class of `re.split(r'[,;\s]+', s)` in `clean_emails`. -/
def isSep (c : Char) : Bool :=
  c == ',' || c == ';' || isWs c

/-- Model of `re.split(r'[,;\s]+', s)`: split on maximal separator
runs, keeping the (possibly empty) pieces at either edge, as `re.split`
does. -/
def splitRuns : Str → List Str
  | [] => [[]]
  | c :: cs =>
    if isSep c then
      match cs with
      | [] => [] :: splitRuns cs
      | d :: _ => if isSep d then splitRuns cs else [] :: splitRuns cs
    else
      match splitRuns cs with
      | [] => [[c]]
      | t :: ts => (c :: t) :: ts

/-- Model of Python `str.split()` with no argument: whitespace-run
separated tokens, empties discarded. -/
def splitWs : Str → List Str
  | [] => []
  | c :: cs =>
    if isWs c then splitWs cs
    else
      match cs with
      | [] => [[c]]
      | d :: _ =>
        if isWs d then [c] :: splitWs cs
        else
          match splitWs cs with
          | [] => [[c]]
          | t :: ts => (c :: t) :: ts

/-- Model of Python `str.split(sep)` for a one-character separator:
split at every occurrence, keeping empty pieces. -/
def splitChar (sep : Char) : Str → List Str
  | [] => [[]]
  | c :: cs =>
    if c == sep then [] :: splitChar sep cs
    else
      match splitChar sep cs with
      | [] => [[c]]
      | t :: ts => (c :: t) :: ts

/-- Model of `' '.join(parts)`. -/
def joinWs : List Str → Str
  | [] => []
  | [t] => t
  | t :: ts => t ++ ' ' :: joinWs ts

/-! ### The honorific-stripping regex of `clean_names`

`clean_names` runs `re.sub(r'\b(mr\.?|mrs\.?|ms\.?|dr\.?)\b', '', name)`.
The regex engine scans left to right; at a position preceded by a word
boundary it tries, in order, `mr.`, `mr`, `mrs.`, `mrs`, `ms.`, `ms`,
`dr.`, `dr` (greedy `\.?` first), each followed by a trailing `\b`
check; the first full match is deleted and scanning resumes after it. -/

/-- The candidate tokens in the order the regex engine tries them,
paired with whether the token ends in a period. -/
def honTokens : List (Str × Bool) :=
  [("mr.".data, true), ("mr".data, false),
   ("mrs.".data, true), ("mrs".data, false),
   ("ms.".data, true), ("ms".data, false),
   ("dr.".data, true), ("dr".data, false)]

/-- Drop `t` from the front of `l` when `t` is an initial segment. -/
def stripFront : Str → Str → Option Str
  | [], l => some l
  | _ :: _, [] => none
  | t :: ts, c :: cs => if t == c then stripFront ts cs else none

/-- Trailing `\b` after a token ending in `.` (a non-word character):
the next character must be a word character. -/
def bAfterDot : Str → Bool
  | [] => false
  | c :: _ => isWordChar c

/-- Trailing `\b` after a token ending in a letter: the next character
must be absent or a non-word character. -/
def bAfterLetter : Str → Bool
  | [] => true
  | c :: _ => !isWordChar c

/-- Try to match one honorific token at the head of `l`; on success
return the last character of the match (it determines subsequent
word-boundary tests) and the rest of the string. -/
def honTry (l : Str) : Option (Char × Str) :=
  honTokens.findSome? fun td =>
    match stripFront td.1 l with
    | some rest =>
      if td.2 then
        if bAfterDot rest then some ('.', rest) else none
      else
        if bAfterLetter rest then some (td.1.getLastD ' ', rest) else none
    | none => none

/-- One left-to-right pass of the honorific substitution.  `prevWord`
records whether the character just before the current position is a
word character (`false` at the start of the string); a match may begin
only at a word boundary.  Fuel makes the recursion structural; every
match consumes at least two characters, so `l.length + 1` fuel always
suffices. -/
def subHonAux : Nat → Bool → Str → Str
  | 0, _, l => l
  | _ + 1, _, [] => []
  | fuel + 1, prevWord, c :: cs =>
    if prevWord then c :: subHonAux fuel (isWordChar c) cs
    else
      match honTry (c :: cs) with
      | some (lastCh, rest) => subHonAux fuel (isWordChar lastCh) rest
      | none => c :: subHonAux fuel (isWordChar c) cs

/-- Model of `re.sub(r'\b(mr\.?|mrs\.?|ms\.?|dr\.?)\b', '', s)`. -/
def subHonorifics (l : Str) : Str :=
  subHonAux (l.length + 1) false l

/-- The characters kept by `re.sub(r'[^\w\s\-]', '', s)`. -/
def keepChar (c : Char) : Bool :=
  isWordChar c || isWs c || c == '-'

/-- Embedding of `DataProcessor.clean_names` (`data_processor.py`
lines 76-101): empty input maps to the empty key; otherwise lower-case
and strip, collapse whitespace runs, delete honorific tokens, delete
characters outside `\w`, `\s`, `-`, and strip again. -/
def clean_names (x : Str) : Str :=
  if x = [] then []
  else
    let n1 := pyStrip (x.map pyLower)
    let n2 := collapseWs n1
    let n3 := subHonorifics n2
    let n4 := n3.filter keepChar
    pyStrip n4

/-- The part of an email after its last `@` (`e.split('@')[-1]`); the
whole string when there is no `@`. -/
def afterLastAt (e : Str) : Str :=
  (splitChar '@' e).getLastD []

/-- The validity test of `clean_emails`:
`'@' in e and '.' in e.split('@')[-1]`. -/
def validEmail (e : Str) : Bool :=
  e.contains '@' && (afterLastAt e).contains '.'

/-- The token loop of `clean_emails`: return the first stripped token
`e` with `'@' in e and '.' in e.split('@')[-1]`. -/
def firstValidTok : List Str → Option Str
  | [] => none
  | e :: es =>
    let e' := pyStrip e
    if validEmail e' then some e' else firstValidTok es

/-- Embedding of `DataProcessor.clean_emails` (`data_processor.py`
lines 103-127): empty input maps to the empty key; otherwise lower-case
and strip, split the field on comma/semicolon/whitespace runs, and
return the first stripped token that looks like an email; if none
qualifies, return the lower-cased stripped original. -/
def clean_emails (x : Str) : Str :=
  if x = [] then []
  else
    let email := pyStrip (x.map pyLower)
    match firstValidTok (splitRuns email) with
    | some e => e
    | none => email

/-! ### Data model -/

/-- The closed set of survey outcomes (the values of the survey's
`Status` column). -/
inductive SurveyStatus
  | stillPresent
  | noLongerPresent
  | inconclusive
  deriving DecidableEq

/-- One row of the retention survey after preprocessing: raw `Name`
and `Email Address` columns plus the derived `name_clean` and
`email_clean` columns and the `Status` column. -/
structure SurveyRecord where
  name : Str
  email : Str
  name_clean : Str
  email_clean : Str
  status : SurveyStatus
  deriving DecidableEq

/-- One registration row after preprocessing: the raw `Name` and
`Email` columns plus the derived `name_clean` and `email_clean`
columns (the remaining roster columns play no role in matching). -/
structure RegRecord where
  name : Str
  email : Str
  name_clean : Str
  email_clean : Str
  deriving DecidableEq

/-- The `match_type` column values produced by the pipeline
(`'None'`, `'Email'`, `'Name_Exact'`, `'Name_Fuzzy'`, `'Partial_Name'`,
`'Phonetic'`, `'Email_Username'`), plus the `NameVariant` tag the spec
mentions, which lets theorems state that the pipeline never emits it. -/
inductive MatchType
  | noMatch
  | email
  | nameExact
  | nameFuzzy
  | partialName
  | phonetic
  | emailUsername
  | nameVariant
  deriving DecidableEq

/-- One row of the results DataFrame built by `match_members`: the
registration together with its `retention_status` (`none` models the
string `'Unknown'`), `match_type` and `match_confidence` columns. -/
structure ResultRow where
  reg : RegRecord
  retention_status : Option SurveyStatus
  match_type : MatchType
  match_confidence : Nat
  deriving DecidableEq

/-- The two `fuzzywuzzy` scorers the source uses: `wratioFn` models the
default scorer of `process.extract` (`fuzz.WRatio` after
preprocessing), `ratioFn` models `fuzz.ratio`.  Both return integers in
0-100; the embedding is parametric in them. -/
structure Fuzz where
  wratioFn : Str → Str → Nat
  ratioFn : Str → Str → Nat

/-- The datasets held by a `DataProcessor` after `preprocess_data`. -/
structure ProcessorData where
  retention_survey : List SurveyRecord
  registrations_2023 : List RegRecord
  registrations_2024 : List RegRecord

/-! ### Exact lookup and fuzzy scoring -/

/-- Model of `dict(zip(keys, values))[k]`: on duplicate keys the last
pair wins, so look from the right. -/
def dictLookup (pairs : List (Str × SurveyStatus)) (k : Str) : Option SurveyStatus :=
  (pairs.reverse.find? fun p => p.1 == k).map (·.2)

/-- The pairs backing `survey_name_lookup` (`data_processor.py` line 273). -/
def namePairs (survey : List SurveyRecord) : List (Str × SurveyStatus) :=
  survey.map fun s => (s.name_clean, s.status)

/-- The pairs backing `survey_email_lookup` (`data_processor.py` line 274). -/
def emailPairs (survey : List SurveyRecord) : List (Str × SurveyStatus) :=
  survey.map fun s => (s.email_clean, s.status)

/-- Model of `survey_data[survey_data['name_clean'] == k].iloc[0]` /
`.index[0]`: the first survey row whose `name_clean` equals `k`. -/
def firstNameRow (survey : List SurveyRecord) (k : Str) : Option SurveyRecord :=
  survey.find? fun s => s.name_clean == k

/-- Descending insertion of a scored candidate; on equal scores the
inserted (earlier-listed) element goes first, so the sort below is
stable, like `heapq.nlargest` inside `process.extract`. -/
def insortDesc (x : Str × Nat) : List (Str × Nat) → List (Str × Nat)
  | [] => [x]
  | y :: ys => if y.2 ≤ x.2 then x :: y :: ys else y :: insortDesc x ys

/-- Stable descending sort by score. -/
def sortDesc : List (Str × Nat) → List (Str × Nat)
  | [] => []
  | x :: xs => insortDesc x (sortDesc xs)

/-- Model of `process.extract(query, cands, limit=n)`: score every
candidate with the extraction scorer, sort stably by descending score,
return the first `n`. -/
def extract (fz : Fuzz) (query : Str) (cands : List Str) (n : Nat) : List (Str × Nat) :=
  (sortDesc (cands.map fun c => (c, fz.wratioFn query c))).take n

/-- Embedding of `DataProcessor.find_name_matches` (`data_processor.py`
lines 229-245): empty name or empty candidate pool give no matches;
otherwise the top five extraction results at or above `threshold`. -/
def find_name_matches (fz : Fuzz) (name : Str) (cands : List Str) (threshold : Nat) :
    List (Str × Nat) :=
  if name = [] ∨ cands = [] then []
  else (extract fz name cands 5).filter fun m => threshold ≤ m.2

/-- The first-occurrence maximum of a scored list: the best-scoring
element, earlier elements winning ties.  This is the candidate that
`process.extract` returns first. -/
def firstMaxBy : List (Str × Nat) → Option (Str × Nat)
  | [] => none
  | p :: ps =>
    match firstMaxBy ps with
    | none => some p
    | some q => if p.2 < q.2 then some q else some p

/-- The best fuzzy candidate for `name` among `cands` with
first-occurrence tie-breaking. -/
def bestFuzzy (fz : Fuzz) (name : Str) (cands : List Str) : Option (Str × Nat) :=
  firstMaxBy (cands.map fun c => (c, fz.wratioFn name c))

/-! ### First pass: `DataProcessor.match_members` -/

/-- The body of the `match_members` loop (`data_processor.py` lines
276-303) for one registration: exact email lookup, then exact name
lookup (empty keys are falsy and never looked up), then fuzzy name
matching with adoption threshold 85; the adopted status comes from the
first survey row carrying the best-matching `name_clean`. -/
def matchOne (fz : Fuzz) (survey : List SurveyRecord) (r : RegRecord) : ResultRow :=
  match (if r.email_clean = [] then none else dictLookup (emailPairs survey) r.email_clean) with
  | some st => ⟨r, some st, .email, 100⟩
  | none =>
    match (if r.name_clean = [] then none else dictLookup (namePairs survey) r.name_clean) with
    | some st => ⟨r, some st, .nameExact, 100⟩
    | none =>
      if r.name_clean = [] then ⟨r, none, .noMatch, 0⟩
      else
        match find_name_matches fz r.name_clean (survey.map (·.name_clean)) 80 with
        | [] => ⟨r, none, .noMatch, 0⟩
        | (best, conf) :: _ =>
          if 85 ≤ conf then
            match firstNameRow survey best with
            | some srow => ⟨r, some srow.status, .nameFuzzy, conf⟩
            | none => ⟨r, none, .noMatch, 0⟩
          else ⟨r, none, .noMatch, 0⟩

/-- `match_members` applied to a fixed registration list. -/
def matchMembersRows (fz : Fuzz) (survey : List SurveyRecord) (regs : List RegRecord) :
    List ResultRow :=
  regs.map (matchOne fz survey)

/-- The `ValueError` message raised for an invalid year. -/
def yearError : Str := "Year must be 2023 or 2024".data

/-- Embedding of `DataProcessor.match_members` (`data_processor.py`
lines 247-307) including the year dispatch: any year other than 2023 or
2024 raises `ValueError`. -/
def match_members (fz : Fuzz) (d : ProcessorData) (year : Int) :
    Except Str (List ResultRow) :=
  if year = 2023 then .ok (matchMembersRows fz d.retention_survey d.registrations_2023)
  else if year = 2024 then .ok (matchMembersRows fz d.retention_survey d.registrations_2024)
  else .error yearError

/-! ### Second pass: `MatchingAnalyzer.improved_matching` -/

/-- `f"{parts[0]} {parts[-1]}"` for a non-empty token list. -/
def firstLastOf (parts : List Str) : Str :=
  parts.headD [] ++ ' ' :: parts.getLastD []

/-- Strategy 1 of `improved_matching` (`matching_analyzer.py` lines
270-282): when the name has at least two tokens, extract the top three
fuzzy matches of "first last" against the survey names and take the
first one scoring at least `t`. -/
def tryPartialName (fz : Fuzz) (names : List Str) (t : Nat) (name : Str) :
    Option (Str × Nat) :=
  if name = [] then none
  else
    let parts := splitWs name
    if 2 ≤ parts.length then
      (extract fz (firstLastOf parts) names 3).find? fun m => t ≤ m.2
    else none

/-- `re.sub(r'[aeiou]', '', s.lower())`. -/
def stripVowels (l : Str) : Str :=
  (l.map pyLower).filter fun c =>
    !(c == 'a' || c == 'e' || c == 'i' || c == 'o' || c == 'u')

/-- Strategy 2 of `improved_matching` (`matching_analyzer.py` lines
284-298): walk the survey names in order and take the first whose
consonant skeleton scores at least `t + 10` against the registration's
skeleton, both skeletons being longer than three characters. -/
def tryPhonetic (fz : Fuzz) (names : List Str) (t : Nat) (name : Str) :
    Option (Str × Nat) :=
  if name = [] then none
  else
    let nc := stripVowels name
    names.findSome? fun sn =>
      let sc := stripVowels sn
      if 3 < nc.length ∧ 3 < sc.length then
        let s := fz.ratioFn nc sc
        if t + 10 ≤ s then some (sn, s) else none
      else none

/-- `e.split('@')[0]`: the part before the first `@`. -/
def localPart (e : Str) : Str :=
  (splitChar '@' e).headD []

/-- Strategy 3 of `improved_matching` (`matching_analyzer.py` lines
300-313): walk the survey emails in order, skip those without `@`,
and at the first whose local part scores at least `t` against the
registration's local part, return the `name_clean` of the first survey
row carrying that email. -/
def tryEmailUser (fz : Fuzz) (survey : List SurveyRecord) (t : Nat) (email : Str) :
    Option (Str × Nat) :=
  if email = [] ∨ ¬ email.contains '@' then none
  else
    let username := localPart email
    (survey.map (·.email_clean)).findSome? fun se =>
      if se.contains '@' then
        let s := fz.ratioFn username (localPart se)
        if t ≤ s then
          match survey.find? (fun row => row.email_clean == se) with
          | some row => some (row.name_clean, s)
          | none => none
        else none
      else none

/-- The three strategies in their fixed order, first success winning.
This is the reference "ordered first-applicable-wins" formulation the
claims talk about; `improvedOne` below is the literal translation of
the Python control flow, and a theorem relates the two. -/
def strategyChain (fz : Fuzz) (survey : List SurveyRecord) (t : Nat)
    (name email : Str) : Option (Str × Nat × MatchType) :=
  match tryPartialName fz (survey.map (·.name_clean)) t name with
  | some (m, sc) => some (m, sc, .partialName)
  | none =>
    match tryPhonetic fz (survey.map (·.name_clean)) t name with
    | some (m, sc) => some (m, sc, .phonetic)
    | none =>
      (tryEmailUser fz survey t email).map fun p => (p.1, p.2, .emailUsername)

/-- The body of the `improved_matching` loop (`matching_analyzer.py`
lines 262-321) for one result row, translated literally: rows already
matched are untouched; otherwise `best_match` starts out falsy (modelled
by the empty string, which Python also treats as falsy) and each
strategy runs only while it is still falsy; at the end a truthy
`best_match` is resolved through the first survey row with that
`name_clean` and the row is overwritten. -/
def improvedOne (fz : Fuzz) (survey : List SurveyRecord) (t : Nat)
    (row : ResultRow) : ResultRow :=
  if row.retention_status.isSome then row
  else
    let name := row.reg.name_clean
    let email := row.reg.email_clean
    let st0 : Str × Nat × MatchType := ([], 0, .noMatch)
    let st1 :=
      if name ≠ [] ∧ st0.1 = [] then
        match tryPartialName fz (survey.map (·.name_clean)) t name with
        | some (m, sc) => (m, sc, MatchType.partialName)
        | none => st0
      else st0
    let st2 :=
      if name ≠ [] ∧ st1.1 = [] then
        match tryPhonetic fz (survey.map (·.name_clean)) t name with
        | some (m, sc) => (m, sc, MatchType.phonetic)
        | none => st1
      else st1
    let st3 :=
      if email ≠ [] ∧ email.contains '@' ∧ st2.1 = [] then
        match tryEmailUser fz survey t email with
        | some (m, sc) => (m, sc, MatchType.emailUsername)
        | none => st2
      else st2
    if st3.1 ≠ [] then
      match firstNameRow survey st3.1 with
      | some srow => ⟨row.reg, some srow.status, st3.2.2, st3.2.1⟩
      | none => row
    else row

/-- Embedding of `MatchingAnalyzer.improved_matching`
(`matching_analyzer.py` lines 240-324): rerun `match_members`, then
rewrite only the rows still `Unknown` using the three extra
strategies. -/
def improved_matching (fz : Fuzz) (d : ProcessorData) (year : Int) (t : Nat) :
    Except Str (List ResultRow) :=
  (match_members fz d year).map fun rows =>
    rows.map (improvedOne fz d.retention_survey t)

/-! ### Name variants and unmatched diagnostics -/

/-- The fixed canonical-name/nickname table of
`_generate_name_variants` (`matching_analyzer.py` lines 198-205), in
insertion order. -/
def nicknameMap : List (Str × Str) :=
  [("william".data, "bill".data), ("robert".data, "bob".data),
   ("james".data, "jim".data), ("richard".data, "rick".data),
   ("michael".data, "mike".data), ("david".data, "dave".data),
   ("christopher".data, "chris".data), ("matthew".data, "matt".data),
   ("anthony".data, "tony".data), ("joseph".data, "joe".data),
   ("daniel".data, "dan".data), ("andrew".data, "andy".data),
   ("kenneth".data, "ken".data), ("elizabeth".data, "liz".data),
   ("patricia".data, "pat".data), ("jennifer".data, "jen".data),
   ("margaret".data, "meg".data), ("catherine".data, "kate".data),
   ("stephanie".data, "steph".data)]

/-- Embedding of `MatchingAnalyzer._generate_name_variants`
(`matching_analyzer.py` lines 184-216): for names with at least two
tokens, the token-reversed form, the middle-token-dropped form when
more than two tokens exist, and nickname substitutions of the first
token in both directions. -/
def generate_name_variants (name : Str) : List Str :=
  let parts := splitWs name
  if 2 ≤ parts.length then
    let v1 := [parts.getLastD [] ++ ' ' :: parts.headD []]
    let v2 := if 2 < parts.length then [parts.headD [] ++ ' ' :: parts.getLastD []] else []
    let first := (parts.headD []).map pyLower
    let restJoined := joinWs parts.tail
    let v3 :=
      match (nicknameMap.find? fun p => p.1 == first).map (·.2) with
      | some nick => [nick ++ ' ' :: restJoined]
      | none => []
    let v4 := (nicknameMap.filter fun p => p.2 == first).map fun p => p.1 ++ ' ' :: restJoined
    v1 ++ v2 ++ v3 ++ v4
  else []

/-- The candidate tags of `_find_potential_matches`: the `'type'`
strings `'partial_name'`, `'email_domain'`, `'name_variant'`. -/
inductive CandType
  | partial_name
  | email_domain
  | name_variant
  deriving DecidableEq

/-- A diagnostics-only candidate (`CandidateMatch`): a scored but not
adopted correspondence; `variant_used` is present only for
name-variant candidates. -/
structure CandidateMatch where
  ctype : CandType
  score : Nat
  matched_name : Str
  matched_email : Str
  status : SurveyStatus
  variant_used : Option Str
  deriving DecidableEq

/-- Match a regex-lite pattern at the start of the text: `.` in the
pattern matches any character, everything else is literal. -/
def patMatchAt : Str → Str → Bool
  | [], _ => true
  | _ :: _, [] => false
  | p :: ps, c :: cs => (p == '.' || p == c) && patMatchAt ps cs

/-- Search for the pattern anywhere in the text. -/
def patSearch (pat : Str) : Str → Bool
  | [] => pat.isEmpty
  | c :: cs => patMatchAt pat (c :: cs) || patSearch pat cs

/-- Model of `series.str.contains(f'@{domain}')` on one cell: pandas
interprets the argument as a regex, so a `.` inside the domain matches
any character; other regex metacharacters do not occur in the inputs
considered here. -/
def containsAtDomain (s domain : Str) : Bool :=
  patSearch ('@' :: domain) s

/-- The partial-name block of `_find_potential_matches`
(`matching_analyzer.py` lines 117-134): top three extractions of
"first last" against survey names, keeping all with score at least 70,
each resolved through the first survey row with that `name_clean`. -/
def candPartialName (fz : Fuzz) (survey : List SurveyRecord) (name : Str) :
    List CandidateMatch :=
  if name = [] then []
  else
    let parts := splitWs name
    if 2 ≤ parts.length then
      (extract fz (firstLastOf parts) (survey.map (·.name_clean)) 3).filterMap fun m =>
        if 70 ≤ m.2 then
          (firstNameRow survey m.1).map fun srow =>
            ⟨.partial_name, m.2, srow.name, srow.email, srow.status, none⟩
        else none
    else []

/-- The email block of `_find_potential_matches`
(`matching_analyzer.py` lines 136-154): only survey rows whose
`email_clean` contains `@domain` (the registration's own domain) are
considered; each with local-part similarity at least 60 becomes a
candidate. -/
def candEmailDomain (fz : Fuzz) (survey : List SurveyRecord) (email : Str) :
    List CandidateMatch :=
  if email = [] ∨ ¬ email.contains '@' then []
  else
    let ps := splitChar '@' email
    let username := ps.headD []
    let domain := ps.tail.headD []
    (survey.filter fun s => containsAtDomain s.email_clean domain).filterMap fun srow =>
      let sc := fz.ratioFn username (localPart srow.email_clean)
      if 60 ≤ sc then some ⟨.email_domain, sc, srow.name, srow.email, srow.status, none⟩
      else none

/-- The name-variant block of `_find_potential_matches`
(`matching_analyzer.py` lines 156-173): for every generated variant,
top two extractions against survey names, keeping all with score at
least 80. -/
def candVariant (fz : Fuzz) (survey : List SurveyRecord) (name : Str) :
    List CandidateMatch :=
  if name = [] then []
  else
    ((generate_name_variants name).map fun v =>
      (extract fz v (survey.map (·.name_clean)) 2).filterMap fun m =>
        if 80 ≤ m.2 then
          (firstNameRow survey m.1).map fun srow =>
            ⟨.name_variant, m.2, srow.name, srow.email, srow.status, some v⟩
        else none).flatten

/-- Per-person entry of the `potential_matches` diagnostics list. -/
structure PersonCandidates where
  registration_name : Str
  registration_email : Str
  potential_matches : List CandidateMatch
  deriving DecidableEq

/-- The per-person body of `_find_potential_matches`
(`matching_analyzer.py` lines 110-180): run the three collecting
blocks in order, and if anything was collected report the first five
candidates. -/
def findPotentialOne (fz : Fuzz) (survey : List SurveyRecord) (r : RegRecord) :
    Option PersonCandidates :=
  let ms := candPartialName fz survey r.name_clean
      ++ candEmailDomain fz survey r.email_clean
      ++ candVariant fz survey r.name_clean
  if ms = [] then none else some ⟨r.name, r.email, ms.take 5⟩

/-- Embedding of `MatchingAnalyzer._find_potential_matches`
(`matching_analyzer.py` lines 105-182) over the unresolved
registrations. -/
def find_potential_matches (fz : Fuzz) (survey : List SurveyRecord)
    (unmatched : List RegRecord) : List PersonCandidates :=
  unmatched.filterMap (findPotentialOne fz survey)

/-- The fields of the analysis dictionary built by
`analyze_unmatched_records` that the claims are about; the remaining
fields (pattern counts, suggestions) are plain aggregations of the
same unmatched rows. -/
structure UnmatchedAnalysis where
  total_registrations : Nat
  total_unmatched : Nat
  unmatched_records : List ResultRow
  potential_matches : List PersonCandidates

/-- The `ZeroDivisionError` raised by `unmatched_percentage` when the
roster is empty. -/
def zeroDivError : Str := "division by zero".data

/-- Embedding of `MatchingAnalyzer.analyze_unmatched_records`
(`matching_analyzer.py` lines 37-76): reject invalid years, rerun
`match_members` on a fresh copy, and aggregate the still-`Unknown`
rows.  Computing `unmatched_percentage` divides by the roster size, so
an empty roster raises `ZeroDivisionError` (a distinct error from the
year `ValueError`).  The match results themselves are not part of the
analyzer's state and are returned untouched by `match_members`. -/
def analyze_unmatched_records (fz : Fuzz) (d : ProcessorData) (year : Int) :
    Except Str UnmatchedAnalysis :=
  if year = 2023 ∨ year = 2024 then
    match match_members fz d year with
    | .error e => .error e
    | .ok matched =>
      let nregs :=
        if year = 2023 then d.registrations_2023.length else d.registrations_2024.length
      if nregs = 0 then .error zeroDivError
      else
        let unmatched := matched.filter fun r => r.retention_status = none
        .ok { total_registrations := nregs
              total_unmatched := unmatched.length
              unmatched_records := unmatched
              potential_matches :=
                find_potential_matches fz d.retention_survey (unmatched.map (·.reg)) }
  else .error yearError

/-! ### Specification-side formulations and concrete fixtures -/

/-- The fuzzy-stage outcome as the specification words it: score the
name against every survey name, take the best-scoring candidate with
first-occurrence tie-breaking, adopt it exactly when the top score is
at least 85 with method `NameFuzzy` and confidence equal to the score,
the adopted status being that of the first survey row bearing the
winning name. -/
def fuzzyExpected (fz : Fuzz) (survey : List SurveyRecord) (r : RegRecord) : ResultRow :=
  match bestFuzzy fz r.name_clean (survey.map (·.name_clean)) with
  | some q =>
    if 85 ≤ q.2 then
      match firstNameRow survey q.1 with
      | some srow => ⟨r, some srow.status, .nameFuzzy, q.2⟩
      | none => ⟨r, none, .noMatch, 0⟩
    else ⟨r, none, .noMatch, 0⟩
  | none => ⟨r, none, .noMatch, 0⟩

/-- The triple-equivalence invariant of the data model: unmatched
means no method, which means zero confidence. -/
def rowInvariant (row : ResultRow) : Prop :=
  (row.retention_status = none ↔ row.match_type = .noMatch)
    ∧ (row.retention_status = none ↔ row.match_confidence = 0)

/-- A concrete scorer pair used by witnesses and counterexamples:
score 100 for equal non-empty strings, 0 otherwise (a total function
returning the minimum score on degenerate input, as the similarity
functions of the source do). -/
def fzEq : Fuzz :=
  ⟨fun a b => if a = b ∧ a ≠ [] then 100 else 0,
   fun a b => if a = b ∧ a ≠ [] then 100 else 0⟩

/-- Fixture: a survey row for `"William Turner"`. -/
def surveyWilliam : SurveyRecord :=
  ⟨"William Turner".data, [], "william turner".data, [], .stillPresent⟩

/-- Fixture: a registration for `"Bill Turner"` with no email. -/
def regBill : RegRecord :=
  ⟨"Bill Turner".data, [], "bill turner".data, []⟩

/-- Fixture: processor data holding the nickname scenario as the 2023
roster. -/
def dataBill : ProcessorData := ⟨[surveyWilliam], [regBill], []⟩

/-- Fixture: a survey row whose name is `"ann lee"` and whose email
field is blank (normalizing to the empty key). -/
def surveyAnn : SurveyRecord :=
  ⟨"Ann Lee".data, [], "ann lee".data, [], .stillPresent⟩

/-- Fixture: a registration named `"ann lee"` with a blank email. -/
def regAnn : RegRecord := ⟨"Ann Lee".data, [], "ann lee".data, []⟩

/-- Fixture: processor data for the blank-email scenario. -/
def dataAnn : ProcessorData := ⟨[surveyAnn], [regAnn], []⟩

/-- Fixture: a survey row with email `john@bb.ca` and a name unrelated
to any registration. -/
def surveyJohnB : SurveyRecord :=
  ⟨"Zed Q".data, "john@bb.ca".data, "zzz qqq".data, "john@bb.ca".data, .stillPresent⟩

/-- Fixture: a nameless registration with email `john@aa.ca`: same
local part as `surveyJohnB`, different domain. -/
def regJohnA : RegRecord := ⟨[], "john@aa.ca".data, [], "john@aa.ca".data⟩

/-- Fixture: a registration sharing `surveyJohnB`'s exact email. -/
def regJohnB : RegRecord :=
  ⟨"John B".data, "john@bb.ca".data, "john b".data, "john@bb.ca".data⟩

/-- Fixture: processor data for the exact-email scenario. -/
def dataJohnB : ProcessorData := ⟨[surveyJohnB], [regJohnB], []⟩

/-! ### Lemmas about the normalizers -/

theorem toNat_ofNat_valid {n : Nat} (h : n.isValidChar) : (Char.ofNat n).toNat = n := by
  simp [Char.ofNat, dif_pos h, Char.ofNatAux, Char.toNat, UInt32.toNat, BitVec.toNat_ofNatLt]

theorem pyLower_idem (c : Char) : pyLower (pyLower c) = pyLower c := by
  unfold pyLower
  split
  · rename_i h
    have hval : (c.toNat + 32).isValidChar := by
      constructor
      omega
    have htn : (Char.ofNat (c.toNat + 32)).toNat = c.toNat + 32 :=
      toNat_ofNat_valid hval
    rw [if_neg]
    rw [htn]
    omega
  · rfl

theorem map_pyLower_fixed {l : Str} (h : ∀ c ∈ l, pyLower c = c) :
    l.map pyLower = l := by
  induction l with
  | nil => rfl
  | cons c cs ih =>
    simp only [List.map_cons]
    rw [h c (by simp), ih fun d hd => h d (by simp [hd])]

theorem mem_map_pyLower {l : Str} {c : Char} (h : c ∈ l.map pyLower) :
    pyLower c = c := by
  rcases List.mem_map.mp h with ⟨d, _, rfl⟩
  exact pyLower_idem d

theorem dropWhile_dropWhile (p : Char → Bool) (l : Str) :
    (l.dropWhile p).dropWhile p = l.dropWhile p := by
  induction l with
  | nil => rfl
  | cons c cs ih =>
    by_cases h : p c
    · simp [List.dropWhile_cons, h, ih]
    · simp [List.dropWhile_cons, h]

theorem mem_pyStrip {l : Str} {c : Char} (h : c ∈ pyStrip l) : c ∈ l := by
  unfold pyStrip at h
  rw [List.mem_reverse] at h
  have h2 := (List.dropWhile_sublist isWs).mem h
  rw [List.mem_reverse] at h2
  exact (List.dropWhile_sublist isWs).mem h2

theorem dropWhile_cons_head {p : Char → Bool} {l : Str} {c : Char} {rest : Str}
    (h : l.dropWhile p = c :: rest) : p c = false := by
  induction l with
  | nil => simp at h
  | cons a as ih =>
    rw [List.dropWhile_cons] at h
    split at h
    · exact ih h
    · rename_i ha
      cases h
      simpa using ha

theorem dropWhile_getLast? {p : Char → Bool} {l : Str}
    (h : l.dropWhile p ≠ []) : (l.dropWhile p).getLast? = l.getLast? := by
  induction l with
  | nil => simp at h
  | cons a as ih =>
    rw [List.dropWhile_cons]
    rw [List.dropWhile_cons] at h
    split
    · rename_i hp
      rw [if_pos hp] at h
      have has : as ≠ [] := by
        intro hnil
        rw [hnil] at h
        simp at h
      rcases as with _ | ⟨b, bs⟩
      · exact absurd rfl has
      · rw [ih h, List.getLast?_cons_cons]
    · rfl

theorem dropWhile_eq_self_of_false {p : Char → Bool} {l : Str}
    (h : ∀ c ∈ l, p c = false) : l.dropWhile p = l := by
  cases l with
  | nil => rfl
  | cons c cs =>
    rw [List.dropWhile_cons, h c (by simp)]
    simp

theorem pyStrip_eq_self {l : Str} (h : ∀ c ∈ l, isWs c = false) :
    pyStrip l = l := by
  unfold pyStrip
  rw [dropWhile_eq_self_of_false h]
  rw [dropWhile_eq_self_of_false fun c hc => h c (List.mem_reverse.mp hc)]
  exact List.reverse_reverse l

theorem pyStrip_idem (l : Str) : pyStrip (pyStrip l) = pyStrip l := by
  rcases hy : pyStrip l with _ | ⟨c, rest⟩
  · simp [pyStrip]
  · -- the head of the stripped string is not whitespace
    have hchead : isWs c = false := by
      unfold pyStrip at hy
      rcases hB : (l.dropWhile isWs).reverse.dropWhile isWs with _ | ⟨b, bs⟩
      · rw [hB] at hy
        simp at hy
      · rw [hB] at hy
        -- head of the reverse is the getLast of the dropWhile result
        have hlast : (b :: bs).getLast? = (l.dropWhile isWs).reverse.getLast? := by
          rw [← hB]
          exact dropWhile_getLast? (by rw [hB]; simp)
        rw [List.getLast?_reverse] at hlast
        rcases hA : l.dropWhile isWs with _ | ⟨a, as⟩
        · rw [hA] at hB
          simp at hB
        · have hac : a = c := by
            have : ((b :: bs).reverse).head? = some c := by rw [hy]; simp
            rw [List.head?_reverse, hlast, hA] at this
            simpa using this
          rw [← hac]
          exact dropWhile_cons_head hA
    -- first: dropWhile does nothing on the stripped string
    have h1 : (c :: rest).dropWhile isWs = c :: rest := by
      rw [List.dropWhile_cons, hchead]
      simp
    -- second: the reverse of the stripped string is already dropWhile-stable
    have h2 : (c :: rest).reverse.dropWhile isWs = (c :: rest).reverse := by
      have : (c :: rest).reverse = (l.dropWhile isWs).reverse.dropWhile isWs := by
        unfold pyStrip at hy
        rw [← hy, List.reverse_reverse]
      rw [this, dropWhile_dropWhile]
    unfold pyStrip
    rw [h1, h2, List.reverse_reverse]

theorem splitRuns_nil_eq : splitRuns [] = [[]] := rfl

theorem splitRuns_cons_eq (c : Char) (cs : Str) :
    splitRuns (c :: cs) =
      if isSep c then
        match cs with
        | [] => [] :: splitRuns cs
        | d :: _ => if isSep d then splitRuns cs else [] :: splitRuns cs
      else
        match splitRuns cs with
        | [] => [[c]]
        | t :: ts => (c :: t) :: ts := rfl

theorem splitRuns_mem : ∀ {l : Str} {t : Str}, t ∈ splitRuns l → ∀ {c : Char}, c ∈ t → c ∈ l := by
  intro l
  induction l with
  | nil =>
    intro t ht c hc
    rw [splitRuns_nil_eq] at ht
    simp at ht
    rw [ht] at hc
    simp at hc
  | cons a as ih =>
    intro t ht c hc
    rw [splitRuns_cons_eq] at ht
    split at ht
    · rcases as with _ | ⟨d, ds⟩
      · simp only [splitRuns_nil_eq] at ht
        rcases List.mem_cons.mp ht with ht | ht
        · rw [ht] at hc; simp at hc
        · simp at ht
          rw [ht] at hc; simp at hc
      · simp only [] at ht
        split at ht
        · exact List.mem_cons_of_mem a (ih ht hc)
        · rcases List.mem_cons.mp ht with ht | ht
          · rw [ht] at hc; simp at hc
          · exact List.mem_cons_of_mem a (ih ht hc)
    · rcases hs : splitRuns as with _ | ⟨u, us⟩
      · rw [hs] at ht
        simp at ht
        rw [ht] at hc
        rcases List.mem_cons.mp hc with hc | hc
        · simp [hc]
        · simp at hc
      · rw [hs] at ht
        rcases List.mem_cons.mp ht with ht | ht
        · rw [ht] at hc
          rcases List.mem_cons.mp hc with hc | hc
          · simp [hc]
          · exact List.mem_cons_of_mem a (ih (by rw [hs]; simp) hc)
        · exact List.mem_cons_of_mem a (ih (by rw [hs]; simp [ht]) hc)

theorem splitRuns_no_sep : ∀ {l : Str} {t : Str}, t ∈ splitRuns l → ∀ {c : Char}, c ∈ t → isSep c = false := by
  intro l
  induction l with
  | nil =>
    intro t ht c hc
    rw [splitRuns_nil_eq] at ht
    simp at ht
    rw [ht] at hc
    simp at hc
  | cons a as ih =>
    intro t ht c hc
    rw [splitRuns_cons_eq] at ht
    split at ht
    · rcases as with _ | ⟨d, ds⟩
      · simp only [splitRuns_nil_eq] at ht
        rcases List.mem_cons.mp ht with ht | ht
        · rw [ht] at hc; simp at hc
        · simp at ht
          rw [ht] at hc; simp at hc
      · simp only [] at ht
        split at ht
        · exact ih ht hc
        · rcases List.mem_cons.mp ht with ht | ht
          · rw [ht] at hc; simp at hc
          · exact ih ht hc
    · rename_i ha
      rcases hs : splitRuns as with _ | ⟨u, us⟩
      · rw [hs] at ht
        simp at ht
        rw [ht] at hc
        rcases List.mem_cons.mp hc with hc | hc
        · rw [hc]; simpa using ha
        · simp at hc
      · rw [hs] at ht
        rcases List.mem_cons.mp ht with ht | ht
        · rw [ht] at hc
          rcases List.mem_cons.mp hc with hc | hc
          · rw [hc]; simpa using ha
          · exact ih (by rw [hs]; simp) hc
        · exact ih (by rw [hs]; simp [ht]) hc

theorem splitRuns_single {l : Str} (hne : l ≠ []) (h : ∀ c ∈ l, isSep c = false) :
    splitRuns l = [l] := by
  induction l with
  | nil => exact absurd rfl hne
  | cons a as ih =>
    rw [splitRuns_cons_eq]
    rw [if_neg (by simp [h a (by simp)])]
    rcases as with _ | ⟨d, ds⟩
    · rw [splitRuns_nil_eq]
    · rw [ih (by simp) fun c hc => h c (by simp [hc])]

theorem firstValidTok_some {toks : List Str} {e : Str}
    (h : firstValidTok toks = some e) :
    ∃ tok ∈ toks, pyStrip tok = e ∧ validEmail e = true := by
  induction toks with
  | nil => simp [firstValidTok] at h
  | cons a as ih =>
    rw [firstValidTok] at h
    split at h
    · rename_i hv
      cases h
      exact ⟨a, by simp, rfl, hv⟩
    · rcases ih h with ⟨tok, hmem, hs, hvv⟩
      exact ⟨tok, by simp [hmem], hs, hvv⟩

theorem validEmail_ne_nil {e : Str} (h : validEmail e = true) : e ≠ [] := by
  intro hnil
  rw [hnil] at h
  simp [validEmail, List.contains] at h

theorem isWs_isSep {c : Char} (h : isWs c = true) : isSep c = true := by
  simp [isSep, h]

/-- Characters of a token returned by the email splitter are
lower-case-fixed and non-separator characters of the lowered stripped
input. -/
theorem clean_emails_tok_chars {x : Str} {tok : Str}
    (hmem : tok ∈ splitRuns (pyStrip (x.map pyLower))) :
    ∀ c ∈ tok, pyLower c = c ∧ isSep c = false := by
  intro c hc
  refine ⟨?_, splitRuns_no_sep hmem hc⟩
  exact mem_map_pyLower (mem_pyStrip (splitRuns_mem hmem hc))

theorem clean_emails_eq_of_ne {x : Str} (hx : x ≠ []) :
    clean_emails x =
      match firstValidTok (splitRuns (pyStrip (x.map pyLower))) with
      | some e => e
      | none => pyStrip (x.map pyLower) := by
  rw [clean_emails, if_neg hx]

theorem clean_emails_idem (x : Str) :
    clean_emails (clean_emails x) = clean_emails x := by
  by_cases hx : x = []
  · rw [hx]
    rfl
  · rw [clean_emails_eq_of_ne hx]
    rcases hfv : firstValidTok (splitRuns (pyStrip (x.map pyLower))) with _ | e
    · -- no token qualified: the result is the lowered stripped original,
      -- which the function maps to itself
      set email := pyStrip (x.map pyLower) with hemail
      by_cases he : email = []
      · rw [he]
        rfl
      · rw [clean_emails_eq_of_ne he]
        have hfix : email.map pyLower = email :=
          map_pyLower_fixed fun c hc => mem_map_pyLower (mem_pyStrip hc)
        have hstrip : pyStrip (email.map pyLower) = email := by
          rw [hfix, hemail]
          exact pyStrip_idem _
        rw [hstrip, hfv]
    · -- a token qualified: the result is that stripped token, a fixed
      -- point of the function
      rcases firstValidTok_some hfv with ⟨tok, hmem, hstok, hval⟩
      have hne : e ≠ [] := validEmail_ne_nil hval
      have hchars : ∀ c ∈ e, pyLower c = c ∧ isSep c = false := by
        intro c hc
        exact clean_emails_tok_chars hmem c (mem_pyStrip (hstok ▸ hc))
      rw [clean_emails_eq_of_ne hne]
      have hfix : e.map pyLower = e := map_pyLower_fixed fun c hc => (hchars c hc).1
      have hnws : ∀ c ∈ e, isWs c = false := by
        intro c hc
        have := (hchars c hc).2
        by_contra hw
        rw [isWs_isSep (by simpa using hw)] at this
        exact absurd this (by simp)
      have hstrip : pyStrip (e.map pyLower) = e := by
        rw [hfix]
        exact pyStrip_eq_self hnws
      rw [hstrip, splitRuns_single hne fun c hc => (hchars c hc).2]
      rw [firstValidTok]
      simp only []
      rw [pyStrip_eq_self hnws, if_pos hval]

/-! ### Lemmas about scoring and extraction -/

theorem insortDesc_ne_nil (x : Str × Nat) (l : List (Str × Nat)) :
    insortDesc x l ≠ [] := by
  cases l with
  | nil => simp [insortDesc]
  | cons y ys =>
    rw [insortDesc]
    split <;> simp

theorem sortDesc_eq_nil_iff {xs : List (Str × Nat)} : sortDesc xs = [] ↔ xs = [] := by
  cases xs with
  | nil => simp [sortDesc]
  | cons x xs =>
    rw [sortDesc]
    simp [insortDesc_ne_nil]

theorem mem_insortDesc {a x : Str × Nat} {l : List (Str × Nat)} :
    a ∈ insortDesc x l ↔ a = x ∨ a ∈ l := by
  induction l with
  | nil => simp [insortDesc]
  | cons y ys ih =>
    rw [insortDesc]
    split
    · simp
    · simp only [List.mem_cons, ih]
      tauto

theorem mem_sortDesc {a : Str × Nat} {xs : List (Str × Nat)} :
    a ∈ sortDesc xs ↔ a ∈ xs := by
  induction xs with
  | nil => simp [sortDesc]
  | cons x xs ih =>
    rw [sortDesc]
    rw [mem_insortDesc]
    simp [ih]

theorem head?_insortDesc (x : Str × Nat) (l : List (Str × Nat)) :
    (insortDesc x l).head? =
      some (match l with
            | [] => x
            | y :: _ => if y.2 ≤ x.2 then x else y) := by
  cases l with
  | nil => rfl
  | cons y ys =>
    rw [insortDesc]
    split <;> rename_i h
    · simp only [List.head?_cons]
      rw [if_pos h]
    · simp only [List.head?_cons]
      rw [if_neg h]

theorem head?_sortDesc (xs : List (Str × Nat)) :
    (sortDesc xs).head? = firstMaxBy xs := by
  induction xs with
  | nil => rfl
  | cons x xs ih =>
    rw [sortDesc, head?_insortDesc, firstMaxBy]
    rcases hs : sortDesc xs with _ | ⟨y, ys⟩
    · have : xs = [] := sortDesc_eq_nil_iff.mp hs
      rw [this]
      rfl
    · have hy : firstMaxBy xs = some y := by
        rw [← ih, hs]
        rfl
      rw [hy]
      simp only []
      by_cases h : y.2 ≤ x.2
      · rw [if_pos h, if_neg (by omega)]
      · rw [if_neg h, if_pos (by omega)]

theorem firstMaxBy_eq_none_iff {xs : List (Str × Nat)} :
    firstMaxBy xs = none ↔ xs = [] := by
  cases xs with
  | nil => simp [firstMaxBy]
  | cons x xs =>
    rw [firstMaxBy]
    rcases hm : firstMaxBy xs with _ | r
    · simp
    · simp only []
      split <;> simp

theorem firstMaxBy_le {xs : List (Str × Nat)} :
    ∀ {q : Str × Nat}, firstMaxBy xs = some q → ∀ p ∈ xs, p.2 ≤ q.2 := by
  induction xs with
  | nil =>
    intro q h
    simp [firstMaxBy] at h
  | cons x xs ih =>
    intro q h p hp
    rw [firstMaxBy] at h
    rcases List.mem_cons.mp hp with hp | hp
    · rcases hm : firstMaxBy xs with _ | r <;> rw [hm] at h <;> simp only [] at h
      · cases h
        rw [hp]
      · split at h <;> cases h
        · rw [hp]; omega
        · rw [hp]
    · rcases hm : firstMaxBy xs with _ | r <;> rw [hm] at h <;> simp only [] at h
      · rw [firstMaxBy_eq_none_iff] at hm
        rw [hm] at hp
        simp at hp
      · have := ih hm p hp
        split at h <;> cases h
        · omega
        · omega

theorem firstMaxBy_mem {xs : List (Str × Nat)} {q : Str × Nat}
    (h : firstMaxBy xs = some q) : q ∈ xs := by
  induction xs with
  | nil => simp [firstMaxBy] at h
  | cons x xs ih =>
    rw [firstMaxBy] at h
    rcases hm : firstMaxBy xs with _ | r <;> rw [hm] at h <;> simp only [] at h
    · cases h
      simp
    · split at h <;> cases h
      · exact List.mem_cons_of_mem x (ih hm)
      · simp

/-! ### Lemmas about the first pass -/

theorem dictLookup_isSome_of_mem {pairs : List (Str × SurveyStatus)} {k : Str}
    (h : ∃ p ∈ pairs, p.1 = k) : ∃ st, dictLookup pairs k = some st := by
  rcases h with ⟨p, hp, hk⟩
  have hmem : p ∈ pairs.reverse := List.mem_reverse.mpr hp
  have : (pairs.reverse.find? fun q => q.1 == k).isSome := by
    rw [List.find?_isSome]
    exact ⟨p, hmem, by simp [hk]⟩
  rcases hf : pairs.reverse.find? fun q => q.1 == k with _ | q
  · rw [hf] at this
    simp at this
  · exact ⟨q.2, by rw [dictLookup, hf]; rfl⟩

theorem matchOne_email_hit {fz : Fuzz} {survey : List SurveyRecord} {r : RegRecord}
    {st : SurveyStatus} (hne : r.email_clean ≠ [])
    (h : dictLookup (emailPairs survey) r.email_clean = some st) :
    matchOne fz survey r = ⟨r, some st, .email, 100⟩ := by
  rw [matchOne, if_neg hne, h]

theorem improvedOne_matched {fz : Fuzz} {survey : List SurveyRecord} {t : Nat}
    {row : ResultRow} (h : row.retention_status.isSome) :
    improvedOne fz survey t row = row := by
  rw [improvedOne, if_pos h]

/-- The first pass establishes the row invariant, returns the original
registration, and only ever tags rows with the first-pass methods. -/
theorem matchOne_spec (fz : Fuzz) (survey : List SurveyRecord) (r : RegRecord) :
    rowInvariant (matchOne fz survey r) ∧ (matchOne fz survey r).reg = r
      ∧ (matchOne fz survey r).match_type ≠ .nameVariant := by
  rw [matchOne]
  split
  · exact ⟨⟨by simp, by simp⟩, rfl, by simp⟩
  · split
    · exact ⟨⟨by simp, by simp⟩, rfl, by simp⟩
    · split
      · exact ⟨⟨by simp, by simp⟩, rfl, by simp⟩
      · split
        · exact ⟨⟨by simp, by simp⟩, rfl, by simp⟩
        · split
          · rename_i best conf rest hc
            split
            · refine ⟨⟨by simp, by simp; omega⟩, rfl, by simp⟩
            · exact ⟨⟨by simp, by simp⟩, rfl, by simp⟩
          · exact ⟨⟨by simp, by simp⟩, rfl, by simp⟩


/-- On a registration that fails both exact lookups, the first pass
computes exactly the specification-side fuzzy outcome: best candidate,
first-occurrence ties, adoption exactly at score 85 and above.  The
scorer hypothesis reflects the source's similarity functions, which are
total and return the minimum score on empty input. -/
theorem matchOne_fuzzy_spec (fz : Fuzz) (survey : List SurveyRecord) (r : RegRecord)
    (hempty : ∀ s, fz.wratioFn [] s = 0)
    (he : r.email_clean = [] ∨ dictLookup (emailPairs survey) r.email_clean = none)
    (hn : r.name_clean = [] ∨ dictLookup (namePairs survey) r.name_clean = none) :
    matchOne fz survey r = fuzzyExpected fz survey r := by
  have he' : (if r.email_clean = [] then none
      else dictLookup (emailPairs survey) r.email_clean) = none := by
    rcases he with h | h
    · rw [if_pos h]
    · by_cases hc : r.email_clean = []
      · rw [if_pos hc]
      · rw [if_neg hc, h]
  have hn' : (if r.name_clean = [] then none
      else dictLookup (namePairs survey) r.name_clean) = none := by
    rcases hn with h | h
    · rw [if_pos h]
    · by_cases hc : r.name_clean = []
      · rw [if_pos hc]
      · rw [if_neg hc, h]
  rw [matchOne]
  rw [he', hn']
  by_cases hnm : r.name_clean = []
  · -- empty name: the source skips the fuzzy stage; the specification
    -- formulation scores everything 0 and adopts nothing
    rw [if_pos hnm, fuzzyExpected]
    rcases hb : bestFuzzy fz r.name_clean (survey.map (·.name_clean)) with _ | q <;> rw [hb]
    have hq2 : q.2 = 0 := by
      have hmem := firstMaxBy_mem hb
      rcases List.mem_map.mp hmem with ⟨c, _, hc⟩
      rw [← hc]
      simp only []
      rw [hnm]
      exact hempty c
    simp only []
    rw [if_neg (show ¬ 85 ≤ q.2 by omega)]
  · rw [if_neg hnm, fuzzyExpected]
    rcases hnames : survey.map (·.name_clean) with _ | ⟨c0, crest⟩
    · -- empty survey: no candidates on either side
      rw [find_name_matches, if_pos (Or.inr hnames)]
      rw [bestFuzzy, hnames]
      rfl
    · have hscored : (survey.map (·.name_clean)).map
          (fun c => (c, fz.wratioFn r.name_clean c)) ≠ [] := by
        rw [hnames]
        simp
      rcases hb : bestFuzzy fz r.name_clean (survey.map (·.name_clean)) with _ | q
      · rw [bestFuzzy] at hb
        rw [firstMaxBy_eq_none_iff] at hb
        exact absurd hb hscored
      · rw [hb, find_name_matches,
          if_neg (by rw [hnames]; simp [hnm])]
        simp only []
        have hsort : ∃ rest, sortDesc ((survey.map (·.name_clean)).map
            (fun c => (c, fz.wratioFn r.name_clean c))) = q :: rest := by
          rcases hs : sortDesc ((survey.map (·.name_clean)).map
              (fun c => (c, fz.wratioFn r.name_clean c))) with _ | ⟨y, ys⟩
          · rw [sortDesc_eq_nil_iff] at hs
            exact absurd hs hscored
          · have := head?_sortDesc ((survey.map (·.name_clean)).map
              (fun c => (c, fz.wratioFn r.name_clean c)))
            rw [hs] at this
            rw [bestFuzzy] at hb
            rw [hb] at this
            simp only [List.head?_cons] at this
            obtain rfl : y = q := by injection this
            exact ⟨ys, hs⟩
        rcases hsort with ⟨rest, hsort⟩
        rw [extract, hsort]
        by_cases h80 : 80 ≤ q.2
        · rw [show (q :: rest).take 5 = q :: rest.take 4 from rfl]
          rw [List.filter_cons, if_pos (by simpa using h80)]
        · have hall : ∀ p ∈ (q :: rest).take 5, ¬ (80 ≤ p.2) := by
            intro p hp
            have hps : p ∈ sortDesc ((survey.map (·.name_clean)).map
                (fun c => (c, fz.wratioFn r.name_clean c))) := by
              rw [hsort]
              exact List.mem_of_mem_take hp
            have hmem := mem_sortDesc.mp hps
            have hbb : firstMaxBy ((survey.map (·.name_clean)).map
                (fun c => (c, fz.wratioFn r.name_clean c))) = some q := by
              rw [bestFuzzy] at hb
              exact hb
            have := firstMaxBy_le hbb p hmem
            omega
          rw [List.filter_eq_nil_iff.mpr (by
            intro a ha
            simpa using hall a ha)]
          simp only []
          rw [if_neg (show ¬ 85 ≤ q.2 by omega)]



/-! ### Lemmas about the second-pass strategies -/

theorem tryPartialName_some {fz : Fuzz} {names : List Str} {t : Nat} {name m : Str}
    {sc : Nat} (h : tryPartialName fz names t name = some (m, sc)) :
    t ≤ sc ∧ m ∈ names := by
  rw [tryPartialName] at h
  split at h
  · cases h
  · simp only [] at h
    split at h
    · have hp := List.find?_some h
      have hmem := List.mem_of_find?_eq_some h
      constructor
      · simpa using hp
      · rw [extract] at hmem
        have := mem_sortDesc.mp (List.mem_of_mem_take hmem)
        rcases List.mem_map.mp this with ⟨c, hc, heq⟩
        cases heq
        exact hc
    · cases h

theorem tryPhonetic_some {fz : Fuzz} {names : List Str} {t : Nat} {name m : Str}
    {sc : Nat} (h : tryPhonetic fz names t name = some (m, sc)) :
    t + 10 ≤ sc ∧ m ∈ names := by
  rw [tryPhonetic] at h
  split at h
  · cases h
  · rcases List.exists_of_findSome?_eq_some h with ⟨sn, hmem, hf⟩
    simp only [] at hf
    split at hf
    · split at hf
      · rename_i hsc
        cases hf
        exact ⟨hsc, hmem⟩
      · cases hf
    · cases hf

theorem tryEmailUser_some {fz : Fuzz} {survey : List SurveyRecord} {t : Nat}
    {email m : Str} {sc : Nat} (h : tryEmailUser fz survey t email = some (m, sc)) :
    t ≤ sc ∧ ∃ row ∈ survey, row.name_clean = m := by
  rw [tryEmailUser] at h
  split at h
  · cases h
  · rcases List.exists_of_findSome?_eq_some h with ⟨se, _, hf⟩
    simp only [] at hf
    split at hf
    · split at hf
      · rename_i hsc
        rcases hrow : survey.find? (fun row => row.email_clean == se) with _ | row <;>
          rw [hrow] at hf
        · cases hf
        · cases hf
          exact ⟨hsc, row, List.mem_of_find?_eq_some hrow, rfl⟩
      · cases hf
    · cases hf


/-- On survey datasets with no empty normalized names, the literal
translation of the `improved_matching` loop body coincides with the
ordered first-applicable-wins chain of the three strategies, resolved
through the first survey row bearing the winning name.  (Without that
hypothesis a strategy could return the empty string, which Python
treats as falsy, letting later strategies run and the final write be
skipped.) -/
theorem improvedOne_chain (fz : Fuzz) (survey : List SurveyRecord) (t : Nat)
    (row : ResultRow) (hrow : row.retention_status = none)
    (hn : ∀ s ∈ survey, s.name_clean ≠ []) :
    improvedOne fz survey t row =
      match strategyChain fz survey t row.reg.name_clean row.reg.email_clean with
      | some (m, sc, ty) =>
        match firstNameRow survey m with
        | some srow => ⟨row.reg, some srow.status, ty, sc⟩
        | none => row
      | none => row := by
  have hmem_ne : ∀ {m : Str}, m ∈ survey.map (·.name_clean) → m ≠ [] := by
    intro m hm
    rcases List.mem_map.mp hm with ⟨srow, hsmem, heq⟩
    rw [← heq]
    exact hn srow hsmem
  rcases hp : tryPartialName fz (survey.map (·.name_clean)) t row.reg.name_clean
      with _ | ⟨m1, sc1⟩
  · rcases hph : tryPhonetic fz (survey.map (·.name_clean)) t row.reg.name_clean
        with _ | ⟨m2, sc2⟩
    · rcases hem : tryEmailUser fz survey t row.reg.email_clean with _ | ⟨m3, sc3⟩
      · -- all three strategies miss: the row is left untouched
        simp only [improvedOne, strategyChain, hp, hph, hem, hrow, Option.isSome_none,
          Bool.false_eq_true, if_false, Option.map_none]
        split <;> split <;> split <;> simp
      · -- only the email-username strategy hits
        have hguard : ¬(row.reg.email_clean = [] ∨ ¬ row.reg.email_clean.contains '@') := by
          intro hg
          rw [tryEmailUser, if_pos hg] at hem
          cases hem
        have hm3 : ∃ r ∈ survey, r.name_clean = m3 := (tryEmailUser_some hem).2
        have hm3ne : m3 ≠ [] := by
          rcases hm3 with ⟨r, hr, hrn⟩
          rw [← hrn]
          exact hn r hr
        have he1 : row.reg.email_clean ≠ [] := fun hc => hguard (Or.inl hc)
        have he2 : row.reg.email_clean.contains '@' = true := by
          by_contra hc
          exact hguard (Or.inr (by simpa using hc))
        simp only [improvedOne, strategyChain, hp, hph, hem, hrow, Option.isSome_none,
          Bool.false_eq_true, if_false, Option.map_some]
        split <;> split <;> simp_all
    · -- the phonetic strategy hits first
      have hm2ne : m2 ≠ [] := hmem_ne (tryPhonetic_some hph).2
      have hname : row.reg.name_clean ≠ [] := by
        intro hni
        rw [tryPhonetic, if_pos hni] at hph
        cases hph
      simp only [improvedOne, strategyChain, hp, hph, hrow, Option.isSome_none,
        Bool.false_eq_true, if_false]
      simp [hname, hm2ne]
  · -- the partial-name strategy hits first
    have hm1ne : m1 ≠ [] := hmem_ne (tryPartialName_some hp).2
    have hname : row.reg.name_clean ≠ [] := by
      intro hni
      rw [tryPartialName, if_pos hni] at hp
      cases hp
    simp only [improvedOne, strategyChain, hp, hrow, Option.isSome_none,
      Bool.false_eq_true, if_false]
    simp [hname, hm1ne]


theorem tryPartialName_some_guard {fz : Fuzz} {names : List Str} {t : Nat}
    {name : Str} {p : Str × Nat} (h : tryPartialName fz names t name = some p) :
    name ≠ [] := by
  intro hc
  rw [tryPartialName, if_pos hc] at h
  cases h

theorem tryPhonetic_some_guard {fz : Fuzz} {names : List Str} {t : Nat}
    {name : Str} {p : Str × Nat} (h : tryPhonetic fz names t name = some p) :
    name ≠ [] := by
  intro hc
  rw [tryPhonetic, if_pos hc] at h
  cases h

theorem tryEmailUser_some_guard {fz : Fuzz} {survey : List SurveyRecord} {t : Nat}
    {email : Str} {p : Str × Nat} (h : tryEmailUser fz survey t email = some p) :
    email ≠ [] ∧ email.contains '@' = true := by
  by_cases hg : email = [] ∨ ¬ email.contains '@'
  · rw [tryEmailUser, if_pos hg] at h
    cases h
  · push_neg at hg
    exact ⟨hg.1, by simpa using hg.2⟩

/-- Exhaustive description of one `improved_matching` loop iteration:
either the row is returned unchanged, or it is overwritten with the
status of the first survey row bearing the winning name, the winning
strategy's tag, and a confidence meeting that strategy's threshold. -/
theorem improvedOne_cases (fz : Fuzz) (survey : List SurveyRecord) (t : Nat)
    (row : ResultRow) :
    improvedOne fz survey t row = row ∨
    (∃ m sc ty srow, firstNameRow survey m = some srow ∧
      improvedOne fz survey t row = ⟨row.reg, some srow.status, ty, sc⟩ ∧
      ((ty = MatchType.partialName ∧ t ≤ sc) ∨ (ty = MatchType.phonetic ∧ t + 10 ≤ sc) ∨
        (ty = MatchType.emailUsername ∧ t ≤ sc))) := by
  by_cases hstat : row.retention_status.isSome
  · left
    exact improvedOne_matched hstat
  · have finish : ∀ m sc ty,
        improvedOne fz survey t row =
          (match firstNameRow survey m with
           | some srow => (⟨row.reg, some srow.status, ty, sc⟩ : ResultRow)
           | none => row) →
        ((ty = MatchType.partialName ∧ t ≤ sc) ∨ (ty = MatchType.phonetic ∧ t + 10 ≤ sc) ∨
          (ty = MatchType.emailUsername ∧ t ≤ sc)) →
        (improvedOne fz survey t row = row ∨
          (∃ m sc ty srow, firstNameRow survey m = some srow ∧
            improvedOne fz survey t row = ⟨row.reg, some srow.status, ty, sc⟩ ∧
            ((ty = MatchType.partialName ∧ t ≤ sc) ∨ (ty = MatchType.phonetic ∧ t + 10 ≤ sc) ∨
              (ty = MatchType.emailUsername ∧ t ≤ sc)))) := by
      intro m sc ty heq hty
      rcases hfr : firstNameRow survey m with _ | srow
      · left
        rw [heq, hfr]
      · right
        exact ⟨m, sc, ty, srow, hfr, by rw [heq, hfr], hty⟩
    rcases hp : tryPartialName fz (survey.map (·.name_clean)) t row.reg.name_clean
        with _ | ⟨m1, sc1⟩
    · rcases hph : tryPhonetic fz (survey.map (·.name_clean)) t row.reg.name_clean
          with _ | ⟨m2, sc2⟩
      · -- both name strategies miss; only the email strategy can fire
        rcases hem : tryEmailUser fz survey t row.reg.email_clean with _ | ⟨m3, sc3⟩
        · left
          simp only [improvedOne]
          simp [hstat, hp, hph, hem]
        · have hg := tryEmailUser_some_guard hem
          have hgm : '@' ∈ row.reg.email_clean := by simpa using hg.2
          by_cases hm3 : m3 = []
          · left
            simp only [improvedOne]
            simp [hstat, hp, hph, hem, hm3, hg.1, hgm]
          · refine finish m3 sc3 .emailUsername ?_
              (Or.inr (Or.inr ⟨rfl, (tryEmailUser_some hem).1⟩))
            simp only [improvedOne]
            simp [hstat, hp, hph, hem, hm3, hg.1, hgm]
      · have hname : row.reg.name_clean ≠ [] := tryPhonetic_some_guard hph
        by_cases hm2 : m2 = []
        · -- the phonetic hit is the falsy empty name: the email strategy may still run
          rcases hem : tryEmailUser fz survey t row.reg.email_clean with _ | ⟨m3, sc3⟩
          · left
            simp only [improvedOne]
            simp [hstat, hp, hph, hem, hm2, hname]
          · have hg := tryEmailUser_some_guard hem
            have hgm : '@' ∈ row.reg.email_clean := by simpa using hg.2
            by_cases hm3 : m3 = []
            · left
              simp only [improvedOne]
              simp [hstat, hp, hph, hem, hm2, hm3, hname, hg.1, hgm]
            · refine finish m3 sc3 .emailUsername ?_
                (Or.inr (Or.inr ⟨rfl, (tryEmailUser_some hem).1⟩))
              simp only [improvedOne]
              simp [hstat, hp, hph, hem, hm2, hm3, hname, hg.1, hgm]
        · refine finish m2 sc2 .phonetic ?_
            (Or.inr (Or.inl ⟨rfl, (tryPhonetic_some hph).1⟩))
          simp only [improvedOne]
          simp [hstat, hp, hph, hm2, hname]
    · have hname : row.reg.name_clean ≠ [] := tryPartialName_some_guard hp
      by_cases hm1 : m1 = []
      · -- the partial hit is the falsy empty name: later strategies still run
        rcases hph : tryPhonetic fz (survey.map (·.name_clean)) t row.reg.name_clean
            with _ | ⟨m2, sc2⟩
        · rcases hem : tryEmailUser fz survey t row.reg.email_clean with _ | ⟨m3, sc3⟩
          · left
            simp only [improvedOne]
            simp [hstat, hp, hph, hem, hm1, hname]
          · have hg := tryEmailUser_some_guard hem
            have hgm : '@' ∈ row.reg.email_clean := by simpa using hg.2
            by_cases hm3 : m3 = []
            · left
              simp only [improvedOne]
              simp [hstat, hp, hph, hem, hm1, hm3, hname, hg.1, hgm]
            · refine finish m3 sc3 .emailUsername ?_
                (Or.inr (Or.inr ⟨rfl, (tryEmailUser_some hem).1⟩))
              simp only [improvedOne]
              simp [hstat, hp, hph, hem, hm1, hm3, hname, hg.1, hgm]
        · by_cases hm2 : m2 = []
          · rcases hem : tryEmailUser fz survey t row.reg.email_clean with _ | ⟨m3, sc3⟩
            · left
              simp only [improvedOne]
              simp [hstat, hp, hph, hem, hm1, hm2, hname]
            · have hg := tryEmailUser_some_guard hem
              have hgm : '@' ∈ row.reg.email_clean := by simpa using hg.2
              by_cases hm3 : m3 = []
              · left
                simp only [improvedOne]
                simp [hstat, hp, hph, hem, hm1, hm2, hm3, hname, hg.1, hgm]
              · refine finish m3 sc3 .emailUsername ?_
                  (Or.inr (Or.inr ⟨rfl, (tryEmailUser_some hem).1⟩))
                simp only [improvedOne]
                simp [hstat, hp, hph, hem, hm1, hm2, hm3, hname, hg.1, hgm]
          · refine finish m2 sc2 .phonetic ?_
              (Or.inr (Or.inl ⟨rfl, (tryPhonetic_some hph).1⟩))
            simp only [improvedOne]
            simp [hstat, hp, hph, hm1, hm2, hname]
      · refine finish m1 sc1 .partialName ?_
          (Or.inl ⟨rfl, (tryPartialName_some hp).1⟩)
        simp only [improvedOne]
        simp [hstat, hp, hm1, hname]


/-! ### Lemmas about lookup order and diagnostics -/

theorem find?_map_eq {α β : Type} (f : α → β) (p : β → Bool) (l : List α) :
    (l.map f).find? p = (l.find? fun a => p (f a)).map f := by
  induction l with
  | nil => rfl
  | cons a as ih =>
    rw [List.map_cons, List.find?_cons, List.find?_cons]
    by_cases h : p (f a)
    · rw [h]
      rfl
    · rw [Bool.not_eq_true] at h
      rw [h, ih]

theorem getLast?_filter_eq {α : Type} (p : α → Bool) (l : List α) :
    (l.filter p).getLast? = l.reverse.find? p := by
  rw [← List.head?_reverse, ← List.filter_reverse, List.filter_head?]

theorem candPartialName_mem {fz : Fuzz} {survey : List SurveyRecord} {name : Str}
    {c : CandidateMatch} (h : c ∈ candPartialName fz survey name) :
    c.ctype = .partial_name ∧ 70 ≤ c.score := by
  rw [candPartialName] at h
  split at h
  · simp at h
  · simp only [] at h
    split at h
    · rcases List.mem_filterMap.mp h with ⟨m, _, hm⟩
      split at hm
      · rename_i hsc
        rcases Option.map_eq_some'.mp hm with ⟨srow, _, heq⟩
        rw [← heq]
        exact ⟨rfl, hsc⟩
      · cases hm
    · simp at h

theorem candEmailDomain_mem {fz : Fuzz} {survey : List SurveyRecord} {email : Str}
    {c : CandidateMatch} (h : c ∈ candEmailDomain fz survey email) :
    c.ctype = .email_domain ∧ 60 ≤ c.score ∧
      ∃ srow ∈ survey,
        containsAtDomain srow.email_clean ((splitChar '@' email).tail.headD []) = true ∧
        c.matched_name = srow.name ∧ c.status = srow.status := by
  rw [candEmailDomain] at h
  split at h
  · simp at h
  · rcases List.mem_filterMap.mp h with ⟨srow, hsmem, hm⟩
    rcases List.mem_filter.mp hsmem with ⟨hsurvey, hdom⟩
    simp only [] at hm
    split at hm
    · rename_i hsc
      cases hm
      exact ⟨rfl, hsc, srow, hsurvey, hdom, rfl, rfl⟩
    · cases hm

theorem candVariant_mem {fz : Fuzz} {survey : List SurveyRecord} {name : Str}
    {c : CandidateMatch} (h : c ∈ candVariant fz survey name) :
    c.ctype = .name_variant ∧ 80 ≤ c.score ∧
      ∃ v ∈ generate_name_variants name, c.variant_used = some v := by
  rw [candVariant] at h
  split at h
  · simp at h
  · rcases List.mem_flatten.mp h with ⟨sub, hsub, hc⟩
    rcases List.mem_map.mp hsub with ⟨v, hv, heq⟩
    rw [← heq] at hc
    rcases List.mem_filterMap.mp hc with ⟨m, _, hm⟩
    split at hm
    · rename_i hsc
      rcases Option.map_eq_some'.mp hm with ⟨srow, _, heq2⟩
      rw [← heq2]
      exact ⟨rfl, hsc, v, hv, rfl⟩
    · cases hm

theorem findPotentialOne_some {fz : Fuzz} {survey : List SurveyRecord} {r : RegRecord}
    {pc : PersonCandidates} (h : findPotentialOne fz survey r = some pc) :
    pc.potential_matches =
      (candPartialName fz survey r.name_clean ++ candEmailDomain fz survey r.email_clean
        ++ candVariant fz survey r.name_clean).take 5 := by
  rw [findPotentialOne] at h
  split at h
  · cases h
  · cases h
    rfl


/-! ### The claims -/

/-- C4 counterexample: name normalization is not idempotent.  On
`"a . b"` the first pass deletes the period after whitespace has
already been collapsed, leaving `"a  b"` with a double space that only
a second pass collapses to `"a b"`. -/
theorem claim_c4_counterexample :
    clean_names (clean_names "a . b".data) ≠ clean_names "a . b".data := by
  decide

/-- C4 (amended): the email normalizer is idempotent on every input;
the name normalizer is not, because honorific and punctuation removal
runs after whitespace collapsing and can leave a doubled space. -/
theorem claim_c4 : ∀ x : Str, clean_emails (clean_emails x) = clean_emails x :=
  clean_emails_idem

/-- C9: asking either matcher for a year other than 2023 or 2024
raises `ValueError` (modelled as `Except.error`), and the two valid
years never do. -/
theorem claim_c9 (fz : Fuzz) (d : ProcessorData) (year : Int) :
    (year ≠ 2023 → year ≠ 2024 →
      match_members fz d year = .error yearError ∧
      analyze_unmatched_records fz d year = .error yearError) ∧
    (year = 2023 ∨ year = 2024 →
      (∃ rows, match_members fz d year = .ok rows) ∧
      analyze_unmatched_records fz d year ≠ .error yearError) := by
  constructor
  · intro h23 h24
    constructor
    · rw [match_members, if_neg h23, if_neg h24]
    · rw [analyze_unmatched_records, if_neg (by tauto)]
  · intro hvalid
    have hmm : ∃ rows, match_members fz d year = .ok rows := by
      rcases hvalid with h | h
      · exact ⟨_, by rw [match_members, if_pos h]⟩
      · rcases eq_or_ne year 2023 with h23 | h23
        · exact ⟨_, by rw [match_members, if_pos h23]⟩
        · exact ⟨_, by rw [match_members, if_neg h23, if_pos h]⟩
    refine ⟨hmm, ?_⟩
    rcases hmm with ⟨rows, hrows⟩
    rw [analyze_unmatched_records, if_pos hvalid, hrows]
    simp only []
    intro hco
    split at hco <;> split at hco <;>
      first
      | (injection hco with hco2; revert hco2; decide)
      | cases hco

/-- C9 witness: year 2025 is rejected, year 2023 is accepted. -/
theorem claim_c9_witness :
    (match_members fzEq dataBill 2025 = .error yearError ∧
      analyze_unmatched_records fzEq dataBill 2025 = .error yearError) ∧
    ((∃ rows, match_members fzEq dataBill 2023 = .ok rows) ∧
      analyze_unmatched_records fzEq dataBill 2023 ≠ .error yearError) :=
  ⟨(claim_c9 fzEq dataBill 2025).1 (by decide) (by decide),
   (claim_c9 fzEq dataBill 2023).2 (Or.inl rfl)⟩

/-- C10: duplicate-key resolution differs between the exact-lookup
path and the similarity paths.  The lookup dictionaries built by
`dict(zip(...))` keep the last survey row with a given normalized key,
while the row-resolution step used by the fuzzy stage and by every
second-pass strategy (`survey[survey['name_clean'] == m].index[0]`)
keeps the first such row. -/
theorem claim_c10 (survey : List SurveyRecord) (k : Str) :
    dictLookup (namePairs survey) k
        = ((survey.filter fun s => s.name_clean == k).getLast?).map (·.status) ∧
    dictLookup (emailPairs survey) k
        = ((survey.filter fun s => s.email_clean == k).getLast?).map (·.status) ∧
    (firstNameRow survey k).map (·.status)
        = ((survey.filter fun s => s.name_clean == k).head?).map (·.status) := by
  refine ⟨?_, ?_, ?_⟩
  · rw [dictLookup, namePairs, ← List.map_reverse, find?_map_eq, Option.map_map,
      getLast?_filter_eq]
    rfl
  · rw [dictLookup, emailPairs, ← List.map_reverse, find?_map_eq, Option.map_map,
      getLast?_filter_eq]
    rfl
  · rw [firstNameRow, List.filter_head?]

/-- C8: diagnostics are presentation-only.  In the embedding all state
is explicit: `analyze_unmatched_records` consumes the processor data
and returns only an analysis object; the match results it aggregates
are exactly the `Unknown`-filtered rows of a fresh `match_members`
run, every aggregated record occurs verbatim among those rows, and
re-running `match_members` after the diagnostics (a pure function of
the same data) yields the same rows. -/
theorem claim_c8 (fz : Fuzz) (d : ProcessorData) (year : Int)
    (rows : List ResultRow) (h : match_members fz d year = .ok rows)
    (hnz23 : year = 2023 → d.registrations_2023 ≠ [])
    (hnz24 : year = 2024 → d.registrations_2024 ≠ []) :
    ∃ a, analyze_unmatched_records fz d year = .ok a ∧
      a.unmatched_records = rows.filter (fun row => row.retention_status = none) ∧
      (∀ row ∈ a.unmatched_records, row ∈ rows) ∧
      match_members fz d year = .ok rows := by
  have hvalid : year = 2023 ∨ year = 2024 := by
    by_contra hc
    push_neg at hc
    rw [match_members, if_neg hc.1, if_neg hc.2] at h
    cases h
  have hnregs : ¬ ((if year = 2023 then d.registrations_2023.length
      else d.registrations_2024.length) = 0) := by
    rcases hvalid with h23 | h24
    · rw [if_pos h23]
      simp [hnz23 h23]
    · rw [if_neg (by omega)]
      simp [hnz24 h24]
  have hana : ∃ a, analyze_unmatched_records fz d year = .ok a ∧
      a.unmatched_records = rows.filter (fun row => row.retention_status = none) := by
    rw [analyze_unmatched_records, if_pos hvalid, h]
    simp only []
    rw [if_neg hnregs]
    exact ⟨_, rfl, rfl⟩
  rcases hana with ⟨a, h1, h2⟩
  refine ⟨a, h1, h2, ?_, h⟩
  intro row hrow
  rw [h2] at hrow
  exact List.mem_of_mem_filter hrow

/-- C8 witness: the nickname fixture, year 2023. -/
theorem claim_c8_witness :
    ∃ a, analyze_unmatched_records fzEq dataBill 2023 = .ok a ∧
      a.unmatched_records =
        [(⟨regBill, none, .noMatch, 0⟩ : ResultRow)].filter
          (fun row => row.retention_status = none) ∧
      (∀ row ∈ a.unmatched_records, row ∈ [(⟨regBill, none, .noMatch, 0⟩ : ResultRow)]) ∧
      match_members fzEq dataBill 2023 = .ok [⟨regBill, none, .noMatch, 0⟩] :=
  claim_c8 fzEq dataBill 2023 [⟨regBill, none, .noMatch, 0⟩] (by rfl)
    (fun _ => by decide) (fun h => by cases h)


/-- C2 counterexample: the claim fails for empty normalized emails.
Registration and survey row both have a blank email (normalizing to
the empty key) and identical normalized names; their normalized emails
are equal, yet the pipeline assigns `NameExact`, not `Email`, because
the empty email key is falsy and never looked up. -/
theorem claim_c2_counterexample :
    regAnn.email_clean = surveyAnn.email_clean ∧
    MatchType.nameExact ≠ MatchType.email ∧
    improved_matching fzEq dataAnn 2023 75 =
      .ok [⟨regAnn, some SurveyStatus.stillPresent, .nameExact, 100⟩] :=
  ⟨rfl, by decide, rfl⟩

/-- C2 (amended): for every registration whose normalized email is
non-empty and equals some survey record's normalized email, the full
pipeline (exact + fuzzy pass followed by the multi-strategy pass)
assigns method `Email` with confidence 100, for every scorer pair and
threshold, the adopted status being the email dictionary's entry. -/
theorem claim_c2 (fz : Fuzz) (d : ProcessorData) (t : Nat) (i : Nat) (r : RegRecord)
    (hr : d.registrations_2023[i]? = some r) (hne : r.email_clean ≠ [])
    (hmem : ∃ s ∈ d.retention_survey, s.email_clean = r.email_clean) :
    ∃ st rows, improved_matching fz d 2023 t = .ok rows ∧
      rows[i]? = some ⟨r, some st, .email, 100⟩ := by
  have hpair : ∃ p ∈ emailPairs d.retention_survey, p.1 = r.email_clean := by
    rcases hmem with ⟨srow, hs, heq⟩
    exact ⟨(srow.email_clean, srow.status), List.mem_map.mpr ⟨srow, hs, rfl⟩, heq⟩
  rcases dictLookup_isSome_of_mem hpair with ⟨st, hst⟩
  refine ⟨st, (matchMembersRows fz d.retention_survey d.registrations_2023).map
    (improvedOne fz d.retention_survey t), ?_, ?_⟩
  · rw [improved_matching, match_members, if_pos rfl]
    rfl
  · rw [List.getElem?_map, matchMembersRows, List.getElem?_map, hr]
    have h1 : matchOne fz d.retention_survey r = ⟨r, some st, .email, 100⟩ :=
      matchOne_email_hit hne hst
    have h2 : improvedOne fz d.retention_survey t ⟨r, some st, .email, 100⟩ =
        ⟨r, some st, .email, 100⟩ := improvedOne_matched (by rfl)
    simp [h1, h2]

/-- C2 witness: a registration with the same normalized email as a
survey row is matched by email with confidence 100. -/
theorem claim_c2_witness :
    ∃ st rows, improved_matching fzEq dataJohnB 2023 75 = .ok rows ∧
      rows[0]? = some ⟨regJohnB, some st, .email, 100⟩ :=
  claim_c2 fzEq dataJohnB 75 0 regJohnB rfl (by decide)
    ⟨surveyJohnB, by simp [dataJohnB], rfl⟩

/-- C5: the multi-strategy pass never revokes or alters a match made
by the exact + fuzzy stage: a row already matched there reappears
verbatim (same survey status, method and confidence) at the same
position after `improved_matching`, for every threshold. -/
theorem claim_c5 (fz : Fuzz) (d : ProcessorData) (year : Int) (t : Nat)
    (rows : List ResultRow) (i : Nat) (res : ResultRow)
    (hrows : match_members fz d year = .ok rows) (hi : rows[i]? = some res)
    (hmatched : res.match_type ≠ .noMatch) :
    ∃ rows2, improved_matching fz d year t = .ok rows2 ∧ rows2[i]? = some res := by
  have hsome : res.retention_status.isSome := by
    have hmem : res ∈ rows := List.getElem?_mem hi
    have hrows' : ∃ regs, rows = matchMembersRows fz d.retention_survey regs := by
      rw [match_members] at hrows
      split at hrows
      · exact ⟨d.registrations_2023, by cases hrows; rfl⟩
      · split at hrows
        · exact ⟨d.registrations_2024, by cases hrows; rfl⟩
        · cases hrows
    rcases hrows' with ⟨regs, rfl⟩
    rcases List.mem_map.mp hmem with ⟨r, _, hres⟩
    have hinv := (matchOne_spec fz d.retention_survey r).1
    rw [hres] at hinv
    rcases hs : res.retention_status with _ | st
    · exact absurd (hinv.1.mp hs) hmatched
    · rfl
  refine ⟨rows.map (improvedOne fz d.retention_survey t), ?_, ?_⟩
  · rw [improved_matching, hrows]
    rfl
  · rw [List.getElem?_map, hi]
    simp [improvedOne_matched hsome]

/-- C5 witness: the email-matched fixture row survives the second pass
unchanged. -/
theorem claim_c5_witness :
    ∃ rows2, improved_matching fzEq dataJohnB 2023 75 = .ok rows2 ∧
      rows2[0]? = some ⟨regJohnB, some SurveyStatus.stillPresent, .email, 100⟩ :=
  claim_c5 fzEq dataJohnB 2023 75
    [⟨regJohnB, some SurveyStatus.stillPresent, .email, 100⟩] 0
    ⟨regJohnB, some SurveyStatus.stillPresent, .email, 100⟩ (by rfl) rfl (by decide)


/-- C6: after either matching stage (for any positive threshold, as in
every call the repository makes — the default is 75), each row
satisfies the triple equivalence `status = Unknown` iff
`method = None` iff `confidence = 0`, every matched row has positive
confidence, and a row matched by the first stage is never reassigned:
it reappears verbatim after the second stage. -/
theorem claim_c6 (fz : Fuzz) (d : ProcessorData) (year : Int) (t : Nat)
    (rows rows2 : List ResultRow) (i : Nat) (res res2 : ResultRow)
    (ht : 0 < t) (h1 : match_members fz d year = .ok rows)
    (h2 : improved_matching fz d year t = .ok rows2) :
    (rows[i]? = some res → rowInvariant res) ∧
    (rows2[i]? = some res2 → rowInvariant res2) ∧
    (rows[i]? = some res → res.retention_status.isSome → rows2[i]? = some res) := by
  have hrows' : ∃ regs, rows = matchMembersRows fz d.retention_survey regs := by
    rw [match_members] at h1
    split at h1
    · exact ⟨d.registrations_2023, by cases h1; rfl⟩
    · split at h1
      · exact ⟨d.registrations_2024, by cases h1; rfl⟩
      · cases h1
  have hmap : rows2 = rows.map (improvedOne fz d.retention_survey t) := by
    rw [improved_matching, h1] at h2
    cases h2
    rfl
  have hfirst : ∀ r ∈ rows, rowInvariant r := by
    rcases hrows' with ⟨regs, rfl⟩
    intro r hr
    rcases List.mem_map.mp hr with ⟨reg, _, hres⟩
    rw [← hres]
    exact (matchOne_spec fz d.retention_survey reg).1
  refine ⟨fun hi => hfirst res (List.getElem?_mem hi), ?_, ?_⟩
  · intro hi2
    have : ∃ r, rows[i]? = some r ∧ improvedOne fz d.retention_survey t r = res2 := by
      rw [hmap, List.getElem?_map] at hi2
      rcases hr : rows[i]? with _ | r <;> rw [hr] at hi2
      · cases hi2
      · exact ⟨r, rfl, by injection hi2⟩
    rcases this with ⟨r, hr, himp⟩
    have hrinv := hfirst r (List.getElem?_mem hr)
    rcases improvedOne_cases fz d.retention_survey t r with hcase | hcase
    · rw [hcase] at himp
      rw [← himp]
      exact hrinv
    · rcases hcase with ⟨m, sc, ty, srow, _, heq, hty⟩
      rw [heq] at himp
      rw [← himp]
      constructor
      · constructor
        · intro hco
          cases hco
        · intro hco
          rcases hty with ⟨h, _⟩ | ⟨h, _⟩ | ⟨h, _⟩ <;> rw [h] at hco <;> cases hco
      · constructor
        · intro hco
          cases hco
        · intro hco
          simp only [] at hco
          rcases hty with ⟨_, h⟩ | ⟨_, h⟩ | ⟨_, h⟩ <;> omega
  · intro hi hsome
    rw [hmap, List.getElem?_map, hi]
    simp [improvedOne_matched hsome]

/-- C6 witness: the email-matched fixture at threshold 75. -/
theorem claim_c6_witness :
    ([(⟨regJohnB, some SurveyStatus.stillPresent, .email, 100⟩ : ResultRow)][0]?
        = some ⟨regJohnB, some SurveyStatus.stillPresent, .email, 100⟩ →
      rowInvariant ⟨regJohnB, some SurveyStatus.stillPresent, .email, 100⟩) ∧
    ([(⟨regJohnB, some SurveyStatus.stillPresent, .email, 100⟩ : ResultRow)][0]?
        = some ⟨regJohnB, some SurveyStatus.stillPresent, .email, 100⟩ →
      rowInvariant ⟨regJohnB, some SurveyStatus.stillPresent, .email, 100⟩) ∧
    ([(⟨regJohnB, some SurveyStatus.stillPresent, .email, 100⟩ : ResultRow)][0]?
        = some ⟨regJohnB, some SurveyStatus.stillPresent, .email, 100⟩ →
      (⟨regJohnB, some SurveyStatus.stillPresent, .email, 100⟩ : ResultRow).retention_status.isSome →
      [(⟨regJohnB, some SurveyStatus.stillPresent, .email, 100⟩ : ResultRow)][0]?
        = some ⟨regJohnB, some SurveyStatus.stillPresent, .email, 100⟩) :=
  claim_c6 fzEq dataJohnB 2023 75
    [⟨regJohnB, some SurveyStatus.stillPresent, .email, 100⟩]
    [⟨regJohnB, some SurveyStatus.stillPresent, .email, 100⟩] 0
    ⟨regJohnB, some SurveyStatus.stillPresent, .email, 100⟩
    ⟨regJohnB, some SurveyStatus.stillPresent, .email, 100⟩
    (by decide) (by rfl) (by rfl)

/-- C3: on every registration that fails both exact lookups, the first
pass computes exactly the specification's fuzzy behaviour: the name is
scored against every survey name, the best candidate wins with
first-occurrence tie-breaking, and it is adopted if and only if the
top score is at least 85, with method `NameFuzzy`, confidence equal to
the score, and the status of the first survey row bearing the winning
name.  The scorer hypothesis is the source's: similarity of an empty
string is the minimum score. -/
theorem claim_c3 (fz : Fuzz) (d : ProcessorData) (i : Nat) (r : RegRecord)
    (rows : List ResultRow)
    (hempty : ∀ s, fz.wratioFn [] s = 0)
    (hrows : match_members fz d 2023 = .ok rows)
    (hr : d.registrations_2023[i]? = some r)
    (he : r.email_clean = [] ∨ dictLookup (emailPairs d.retention_survey) r.email_clean = none)
    (hn : r.name_clean = [] ∨ dictLookup (namePairs d.retention_survey) r.name_clean = none) :
    rows[i]? = some (fuzzyExpected fz d.retention_survey r) := by
  have hrows' : rows = matchMembersRows fz d.retention_survey d.registrations_2023 := by
    rw [match_members, if_pos rfl] at hrows
    cases hrows
    rfl
  rw [hrows', matchMembersRows, List.getElem?_map, hr]
  simp [matchOne_fuzzy_spec fz d.retention_survey r hempty he hn]

/-- C3 witness: the nickname fixture fails both lookups and the fuzzy
stage leaves it Unknown, which is exactly the specification outcome at
top score 0. -/
theorem claim_c3_witness :
    [(⟨regBill, none, MatchType.noMatch, 0⟩ : ResultRow)][0]?
      = some (fuzzyExpected fzEq dataBill.retention_survey regBill) :=
  claim_c3 fzEq dataBill 0 regBill [⟨regBill, none, .noMatch, 0⟩]
    (fun s => by simp [fzEq]) (by rfl) rfl (Or.inl rfl) (Or.inr (by rfl))


/-- C1 counterexample: the name-variant strategy is not part of the
multi-strategy second pass.  Registration "bill turner" against survey
"william turner": the variant generator produces "william turner",
which scores 100 (at least 80), so under the claim the second pass
would adopt it with method `NameVariant`; the code leaves the record
`Unknown` because `improved_matching` only runs the partial-name,
phonetic and email-username strategies. -/
theorem claim_c1_counterexample :
    improved_matching fzEq dataBill 2023 75 =
      .ok [⟨regBill, none, .noMatch, 0⟩] ∧
    "william turner".data ∈ generate_name_variants regBill.name_clean ∧
    80 ≤ fzEq.wratioFn "william turner".data surveyWilliam.name_clean :=
  ⟨rfl, by decide, by decide⟩

/-- C1 (amended): for every registration still Unknown after the exact
and fuzzy stages, the second pass tries exactly three strategies in
the fixed order partial-name, phonetic, email-username; the first
strategy whose score meets its threshold (`t`, `t + 10`, `t`) wins and
sets the corresponding method, the adopted status coming from the
first survey row bearing the winning name; no row ever receives the
method `NameVariant` — the name-variant generator is used only by the
diagnostics (claim C7), which accept variants at score 80 and above.
Stated for survey datasets with no empty normalized name (an empty
winning name is falsy in Python and would abort the write). -/
theorem claim_c1 (fz : Fuzz) (d : ProcessorData) (t : Nat)
    (rows rows2 : List ResultRow) (i : Nat) (res res2 : ResultRow)
    (hn : ∀ s ∈ d.retention_survey, s.name_clean ≠ [])
    (h1 : match_members fz d 2023 = .ok rows)
    (h2 : improved_matching fz d 2023 t = .ok rows2)
    (hi : rows[i]? = some res) (hi2 : rows2[i]? = some res2) :
    res2.match_type ≠ .nameVariant ∧
    (res.retention_status = none →
      res2 = match strategyChain fz d.retention_survey t res.reg.name_clean res.reg.email_clean with
        | some (m, sc, ty) =>
          match firstNameRow d.retention_survey m with
          | some srow => ⟨res.reg, some srow.status, ty, sc⟩
          | none => res
        | none => res) ∧
    (∀ m sc, tryPartialName fz (d.retention_survey.map (·.name_clean)) t res.reg.name_clean
        = some (m, sc) → t ≤ sc) ∧
    (∀ m sc, tryPhonetic fz (d.retention_survey.map (·.name_clean)) t res.reg.name_clean
        = some (m, sc) → t + 10 ≤ sc) ∧
    (∀ m sc, tryEmailUser fz d.retention_survey t res.reg.email_clean
        = some (m, sc) → t ≤ sc) := by
  have hrows' : rows = matchMembersRows fz d.retention_survey d.registrations_2023 := by
    rw [match_members, if_pos rfl] at h1
    cases h1
    rfl
  have hmap : rows2 = rows.map (improvedOne fz d.retention_survey t) := by
    rw [improved_matching, h1] at h2
    cases h2
    rfl
  have himp : improvedOne fz d.retention_survey t res = res2 := by
    rw [hmap, List.getElem?_map, hi] at hi2
    injection hi2
  have hresty : res.match_type ≠ .nameVariant := by
    have hmem : res ∈ rows := List.getElem?_mem hi
    rw [hrows'] at hmem
    rcases List.mem_map.mp hmem with ⟨reg, _, hres⟩
    rw [← hres]
    exact (matchOne_spec fz d.retention_survey reg).2.2
  refine ⟨?_, ?_, fun m sc h => (tryPartialName_some h).1,
    fun m sc h => (tryPhonetic_some h).1, fun m sc h => (tryEmailUser_some h).1⟩
  · rcases improvedOne_cases fz d.retention_survey t res with hcase | hcase
    · rw [hcase] at himp
      rw [← himp]
      exact hresty
    · rcases hcase with ⟨m, sc, ty, srow, _, heq, hty⟩
      rw [heq] at himp
      rw [← himp]
      simp only []
      rcases hty with ⟨h, _⟩ | ⟨h, _⟩ | ⟨h, _⟩ <;> rw [h] <;> simp
  · intro hunk
    rw [← himp]
    exact improvedOne_chain fz d.retention_survey t res hunk hn

/-- C1 witness: the nickname fixture, where all three strategies miss
and the row stays Unknown, matching the empty strategy chain. -/
theorem claim_c1_witness :
    (⟨regBill, none, MatchType.noMatch, 0⟩ : ResultRow).match_type ≠ .nameVariant ∧
    ((⟨regBill, none, MatchType.noMatch, 0⟩ : ResultRow).retention_status = none →
      (⟨regBill, none, MatchType.noMatch, 0⟩ : ResultRow) =
        match strategyChain fzEq dataBill.retention_survey 75
            (⟨regBill, none, MatchType.noMatch, 0⟩ : ResultRow).reg.name_clean
            (⟨regBill, none, MatchType.noMatch, 0⟩ : ResultRow).reg.email_clean with
        | some (m, sc, ty) =>
          match firstNameRow dataBill.retention_survey m with
          | some srow => ⟨(⟨regBill, none, MatchType.noMatch, 0⟩ : ResultRow).reg,
              some srow.status, ty, sc⟩
          | none => ⟨regBill, none, MatchType.noMatch, 0⟩
        | none => ⟨regBill, none, MatchType.noMatch, 0⟩) ∧
    (∀ m sc, tryPartialName fzEq (dataBill.retention_survey.map (·.name_clean)) 75
        (⟨regBill, none, MatchType.noMatch, 0⟩ : ResultRow).reg.name_clean
        = some (m, sc) → 75 ≤ sc) ∧
    (∀ m sc, tryPhonetic fzEq (dataBill.retention_survey.map (·.name_clean)) 75
        (⟨regBill, none, MatchType.noMatch, 0⟩ : ResultRow).reg.name_clean
        = some (m, sc) → 75 + 10 ≤ sc) ∧
    (∀ m sc, tryEmailUser fzEq dataBill.retention_survey 75
        (⟨regBill, none, MatchType.noMatch, 0⟩ : ResultRow).reg.email_clean
        = some (m, sc) → 75 ≤ sc) :=
  claim_c1 fzEq dataBill 75 [⟨regBill, none, .noMatch, 0⟩] [⟨regBill, none, .noMatch, 0⟩]
    0 ⟨regBill, none, .noMatch, 0⟩ ⟨regBill, none, .noMatch, 0⟩
    (by decide) (by rfl) (by rfl) rfl rfl

/-- C7 counterexample: the diagnostics email strategy is restricted to
survey rows sharing the registration's email domain.  Registration
`john@aa.ca` against survey `john@bb.ca`: identical local parts score
100 (at least the display threshold 60), so under the claim a
candidate would be reported, yet the code reports none because the
domains differ. -/
theorem claim_c7_counterexample :
    findPotentialOne fzEq [surveyJohnB] regJohnA = none ∧
    60 ≤ fzEq.ratioFn (localPart regJohnA.email_clean) (localPart surveyJohnB.email_clean) :=
  ⟨rfl, by decide⟩

/-- C7 (amended): for every unresolved registration the diagnostics
component returns at most 5 candidate suggestions, accumulated (not
stopped at the first hit) in strategy order — partial-name, email, and
name-variant — and truncated to the first five; partial-name
candidates require score at least 70, email candidates at least 60 and
only arise from survey rows whose stored email contains `@` followed
by the registration's domain, and name-variant candidates at least 80,
each recording the variant that produced them. -/
theorem claim_c7 (fz : Fuzz) (survey : List SurveyRecord) (r : RegRecord)
    (pc : PersonCandidates) (h : findPotentialOne fz survey r = some pc) :
    pc.potential_matches.length ≤ 5 ∧
    pc.potential_matches =
      (candPartialName fz survey r.name_clean ++ candEmailDomain fz survey r.email_clean
        ++ candVariant fz survey r.name_clean).take 5 ∧
    ∀ c ∈ pc.potential_matches,
      (c.ctype = .partial_name → 70 ≤ c.score) ∧
      (c.ctype = .email_domain → 60 ≤ c.score ∧
        ∃ srow ∈ survey,
          containsAtDomain srow.email_clean ((splitChar '@' r.email_clean).tail.headD []) = true ∧
          c.matched_name = srow.name ∧ c.status = srow.status) ∧
      (c.ctype = .name_variant → 80 ≤ c.score ∧
        ∃ v ∈ generate_name_variants r.name_clean, c.variant_used = some v) := by
  have heq := findPotentialOne_some h
  refine ⟨by rw [heq]; exact List.length_take_le 5 _, heq, ?_⟩
  intro c hc
  rw [heq] at hc
  have hc' := List.mem_of_mem_take hc
  rcases List.mem_append.mp hc' with hc2 | hc3
  · rcases List.mem_append.mp hc2 with hpart | hemail
    · have := candPartialName_mem hpart
      refine ⟨fun _ => this.2, fun hco => ?_, fun hco => ?_⟩
      · rw [this.1] at hco
        cases hco
      · rw [this.1] at hco
        cases hco
    · have := candEmailDomain_mem hemail
      refine ⟨fun hco => ?_, fun _ => this.2, fun hco => ?_⟩
      · rw [this.1] at hco
        cases hco
      · rw [this.1] at hco
        cases hco
  · have := candVariant_mem hc3
    refine ⟨fun hco => ?_, fun hco => ?_, fun _ => this.2⟩
    · rw [this.1] at hco
      cases hco
    · rw [this.1] at hco
      cases hco

/-- C7 witness: the nickname fixture produces exactly one candidate,
via the variant "william turner" at score 100. -/
theorem claim_c7_witness :
    (([⟨CandType.name_variant, 100, "William Turner".data, [], SurveyStatus.stillPresent,
        some "william turner".data⟩] : List CandidateMatch)).length ≤ 5 ∧
    ([⟨CandType.name_variant, 100, "William Turner".data, [], SurveyStatus.stillPresent,
        some "william turner".data⟩] : List CandidateMatch) =
      (candPartialName fzEq [surveyWilliam] regBill.name_clean
        ++ candEmailDomain fzEq [surveyWilliam] regBill.email_clean
        ++ candVariant fzEq [surveyWilliam] regBill.name_clean).take 5 ∧
    ∀ c ∈ ([⟨CandType.name_variant, 100, "William Turner".data, [], SurveyStatus.stillPresent,
        some "william turner".data⟩] : List CandidateMatch),
      (c.ctype = .partial_name → 70 ≤ c.score) ∧
      (c.ctype = .email_domain → 60 ≤ c.score ∧
        ∃ srow ∈ [surveyWilliam],
          containsAtDomain srow.email_clean
            ((splitChar '@' regBill.email_clean).tail.headD []) = true ∧
          c.matched_name = srow.name ∧ c.status = srow.status) ∧
      (c.ctype = .name_variant → 80 ≤ c.score ∧
        ∃ v ∈ generate_name_variants regBill.name_clean, c.variant_used = some v) := by
  have h := claim_c7 fzEq [surveyWilliam] regBill
    ⟨regBill.name, regBill.email,
      [⟨CandType.name_variant, 100, "William Turner".data, [], SurveyStatus.stillPresent,
        some "william turner".data⟩]⟩ (by rfl)
  exact h

end WSARetention
